import Mathlib

/-!
Verification of the bubbles data-processing framework's dispatch and
execution core against its specification.

The Lean definitions below are shallow embeddings of the Python sources:

* `Bubbles.Op.*`      — `bubbles/op.py` (`Type`, `Signature`, `Operation`,
                        `resolution_order`, `dispatch`).
* `Bubbles.Core.*`    — `bubbles/core.py` / `bubbles/operation.py` /
                        `bubbles/execution/context.py` (string `Signature`,
                        `OperationContext.add_operation`,
                        `OperationContext.call`).
* `Bubbles.Graph.*`   — `bubbles/graph.py` / `bubbles/execution/graph.py`
                        (`Graph.connect`, `Graph.sorted_nodes`).
* `Bubbles.Engine.*`  — `bubbles/engine.py` (`ExecutionEngine.run`).
-/

namespace Bubbles

namespace Op

/-- `Type = namedtuple("Type", ["specifier", "islist"])` from `op.py`. -/
structure Ty where
  specifier : String
  islist : Bool
deriving DecidableEq, Repr

/-- `ANY_SPECIFIER = "*"` from `op.py`. -/
def ANY_SPECIFIER : String := "*"

/-- `Any = Type(ANY_SPECIFIER, False)` from `op.py`. -/
def AnyTy : Ty := ⟨ANY_SPECIFIER, false⟩

/-- Python's `s.endswith(suffix)`, written on the character list so that
the kernel can evaluate it. -/
def strEndsWith (s suffix : String) : Bool :=
  List.isSuffixOf suffix.data s.data

/-- Python's `s[:-n]`: drop the last `n` characters. -/
def strDropRight (s : String) (n : Nat) : String :=
  ⟨s.data.take (s.data.length - n)⟩

/-- `to_type(obj)` from `op.py`, for the string case: a trailing `"[]"`
marks a list type and is stripped from the specifier. -/
def to_type (obj : String) : Ty :=
  if strEndsWith obj "[]" then ⟨strDropRight obj 2, true⟩ else ⟨obj, false⟩

/-- `Signature` from `op.py`: a tuple of operand `Type`s plus an output
type.  `__eq__` compares both fields, which `DecidableEq` mirrors. -/
structure Signature where
  operands : List Ty
  output : Option Ty := none
deriving DecidableEq, Repr

/-- `Signature(*types)` applied to strings: every argument goes through
`to_type`. -/
def Signature.ofStrings (types : List String) : Signature :=
  ⟨types.map to_type, none⟩

/-- `Signature.match(self, *operand_types)` from `op.py`: arity must agree
and at every position the list flags must be equal and the matcher must be
the wildcard or equal to the concrete specifier.  (`match` is a reserved
word in Lean, hence the name `matches`.) -/
def Signature.matches (s : Signature) (operandTypes : List String) : Bool :=
  operandTypes.length == s.operands.length &&
    ((s.operands.zip (operandTypes.map to_type)).all fun mt =>
      mt.1.islist == mt.2.islist &&
        (mt.1.specifier == ANY_SPECIFIER || mt.1.specifier == mt.2.specifier))

/-- `Signature.__lt__` from `op.py` (`@total_ordering`): `self < other`
holds unless some position pairs a concrete matcher of `self` with the
wildcard `Any` of `other`. -/
def Signature.pyLT (s other : Signature) : Bool :=
  (s.operands.zip other.operands).all fun mt => !(mt.1 != AnyTy && mt.2 == AnyTy)

/-- Insert `x` at position `n` of `l` (Python `list.insert`). -/
def insertAt (n : Nat) (x : α) (l : List α) : List α :=
  l.take n ++ x :: l.drop n

/-- Binary search for the insertion point used by CPython's binary
insertion sort: find the least `p` in `[l, r)` with `pivot < arr[p]`,
comparing with `lt`.  The range shrinks every step, so `fuel = r - l`
suffices; it is passed explicitly so the kernel can evaluate. -/
def binInsertPosAux (lt : α → α → Bool) (arr : List α) (pivot : α) :
    Nat → Nat → Nat → Nat
  | 0, l, _ => l
  | fuel + 1, l, r =>
    if l < r then
      let mid := (l + r) / 2
      if lt pivot (arr.getD mid pivot) then binInsertPosAux lt arr pivot fuel l mid
      else binInsertPosAux lt arr pivot fuel (mid + 1) r
    else l

/-- Stable binary insertion sort: the algorithm CPython's `sorted`
applies to short lists (every registry below has at most two entries,
where any comparison sort driven by `__lt__` yields the same result). -/
def binInsSort (lt : α → α → Bool) : List α → List α → List α
  | sorted, [] => sorted
  | sorted, x :: xs =>
    binInsSort lt
      (insertAt (binInsertPosAux lt sorted x (sorted.length + 1) 0 sorted.length)
        x sorted)
      xs

/-- `sorted(...)` from Python, with the comparison `lt`. -/
def pysorted (lt : α → α → Bool) (l : List α) : List α := binInsSort lt [] l

/-- `itertools.product(*types)`: Cartesian product of the tag lists, the
rightmost operand varying fastest. -/
def product : List (List α) → List (List α)
  | [] => [[]]
  | xs :: rest => xs.flatMap fun x => (product rest).map (x :: ·)

/-- `Operation` from `op.py`, reduced to the data `resolution_order` and
`dispatch` consult: the registry dict `Signature → implementation` in
insertion order.  Implementations are identified by numeric ids; their
behaviour is a parameter of `dispatch`. -/
structure Operation where
  name : String
  registry : List (Signature × Nat)
deriving Repr

/-- `Operation.signatures`: the registry keys in insertion order. -/
def Operation.signatures (op : Operation) : List Signature :=
  op.registry.map (·.1)

/-- `Operation.sorted_signatures`: `sorted(self.registry.keys())`, using
`Signature.__lt__`. -/
def Operation.sorted_signatures (op : Operation) : List Signature :=
  pysorted Signature.pyLT op.signatures

/-- The list built by `Operation.resolution_order` before the emptiness
check: for every combination of operand tags (in Cartesian-product
order), all sorted signatures matching that combination. -/
def Operation.resolutionMatches (op : Operation) (types : List (List String)) :
    List Signature :=
  (product types).flatMap fun itertype =>
    op.sorted_signatures.filter fun sig => sig.matches itertype

/-- Errors raised by `resolution_order` and `dispatch` in `op.py`.  The
Python code aborts with an exception in each case; `emptyQueuePeek` is
the uncaught `IndexError` raised by `resolution_order[0]` when the
candidate queue is empty, and `exhausted` is the trailing
`RetryError("No remaining signature …")` raise after the while loop. -/
inductive DispatchError where
  | noMatch
  | noSignatureInOperation
  | retryNotAllowed
  | alreadyVisited
  | emptyQueuePeek
  | exhausted
  | fuelOut
deriving DecidableEq, Repr

/-- `Operation.resolution_order`: the match list, or `OperationError`
("No matching signature found") when it is empty. -/
def Operation.resolution_order (op : Operation) (types : List (List String)) :
    Except DispatchError (List Signature) :=
  let ms := op.resolutionMatches types
  if ms.isEmpty then .error .noMatch else .ok ms

/-- What one invocation of a registered implementation does: return a
result normally, or raise `RetryOperation` with an optional alternative
signature (a tuple of tag strings). -/
inductive AttemptOutcome where
  | ok (result : Nat)
  | retry (alt : Option (List String))
deriving Repr

/-- `registry[sig]` lookup. -/
def lookupSig (registry : List (Signature × Nat)) (s : Signature) : Option Nat :=
  (registry.find? fun p => p.1 == s).map (·.2)

/-- The `while resolution_order:` loop of `Operation.dispatch`.  State:
candidate queue, visited set, global attempt counter `t`, invocation
trace.  `behavior implId t` is the outcome of invoking implementation
`implId` as attempt number `t`.  `canRetry` models
`session.can_retry(self.name)`.  `fuel` bounds the iteration count (the
lemmas below always supply enough; `.fuelOut` never occurs then). -/
def dispatchLoop (canRetry : Bool) (registry : List (Signature × Nat))
    (behavior : Nat → Nat → AttemptOutcome) :
    List Signature → List Signature → Nat → List (Signature × Nat) → Nat →
      List (Signature × Nat) × Except DispatchError Nat
  | [], _, _, trace, _ => (trace, .error .exhausted)
  | _ :: _, _, _, trace, 0 => (trace, .error .fuelOut)
  | sig :: rest, visited, t, trace, fuel + 1 =>
    let visited' := sig :: visited
    match lookupSig registry sig with
    | none => (trace, .error .noSignatureInOperation)
    | some implId =>
      let trace' := trace ++ [(sig, t)]
      match behavior implId t with
      | .ok r => (trace', .ok r)
      | .retry alt =>
        if !canRetry then (trace', .error .retryNotAllowed)
        else
          match alt with
          | some tys =>
            let rsig := Signature.ofStrings tys
            if rsig ∈ visited' then (trace', .error .alreadyVisited)
            else dispatchLoop canRetry registry behavior
              (rsig :: rest) visited' (t + 1) trace' fuel
          | none =>
            match rest with
            | [] => (trace', .error .emptyQueuePeek)
            | _ :: _ => dispatchLoop canRetry registry behavior
                rest visited' (t + 1) trace' fuel

/-- `Operation.dispatch` from `op.py`, from the point where the operand
representations `types` have been computed: build the resolution order,
then run the retry loop.  Returns the invocation trace and the result. -/
def Operation.dispatch (op : Operation) (canRetry : Bool)
    (behavior : Nat → Nat → AttemptOutcome) (types : List (List String))
    (fuel : Nat) : List (Signature × Nat) × Except DispatchError Nat :=
  match op.resolution_order types with
  | .error e => ([], .error e)
  | .ok order => dispatchLoop canRetry op.registry behavior order [] 0 [] fuel

end Op

namespace Core

/-- `Operand = namedtuple("Operand", ["rep", "islist", "isany"])` from
`core.py` and `operation.py`. -/
structure Operand where
  rep : String
  islist : Bool
  isany : Bool
deriving DecidableEq, Repr

/-- `rep_to_operand(rep)` from `core.py` / `operation.py`. -/
def rep_to_operand (rep : String) : Operand :=
  if Op.strEndsWith rep "[]" then
    let optype := Op.strDropRight rep 2
    ⟨optype, true, optype == "*"⟩
  else
    ⟨rep, false, rep == "*"⟩

/-- `Signature` from `core.py` / `operation.py`: stores the raw string
tuple; `operands` is derived through `rep_to_operand`. -/
structure CSignature where
  signature : List String
deriving DecidableEq, Repr

/-- The derived `self.operands` field of the `core.py` `Signature`. -/
def CSignature.operands (s : CSignature) : List Operand :=
  s.signature.map rep_to_operand

/-- `Signature.matches(self, *operands)` from `core.py` /
`operation.py`. -/
def CSignature.matches (s : CSignature) (operands : List String) : Bool :=
  operands.length == s.operands.length &&
    ((s.operands.zip (operands.map rep_to_operand)).all fun mt =>
      mt.1.islist == mt.2.islist && (mt.1.isany || mt.1.rep == mt.2.rep))

end Core

namespace Op

/-- Python dict assignment `d[k] = v`: if an equal key exists its value
is replaced in place (the original key object and position are kept),
otherwise the pair is appended. -/
def dictInsert [BEq α] (d : List (α × β)) (k : α) (v : β) : List (α × β) :=
  if d.any fun p => p.1 == k then
    d.map fun p => if p.1 == k then (p.1, v) else p
  else d ++ [(k, v)]

/-- The full `Operation` object of `op.py` as `register` sees it:
prototype (operand types, or `none` before the first registration) and
the registry dict. -/
structure OperationReg where
  name : String
  prototype : Option (List Ty)
  registry : List (Signature × Nat)
deriving Repr

/-- `Operation.register` from `op.py`, after `get_signature` has produced
`sig` for the function `funcId`: check the operand count against the
prototype (skipped when the prototype is absent — or 0-ary, since Python
tests `if self.prototype` by `__len__`), derive the prototype from the
first registration, then execute `self.registry[sig] = func`, a plain
dict assignment with no duplicate check. -/
def OperationReg.register (op : OperationReg) (sig : Signature) (funcId : Nat) :
    Except String OperationReg :=
  match op.prototype with
  | some proto =>
    if proto.length ≠ 0 ∧ sig.operands.length ≠ proto.length then
      .error "ArgumentError: operand count mismatch"
    else
      .ok { op with registry := dictInsert op.registry sig funcId }
  | none =>
    .ok { op with
      prototype := some (List.replicate sig.operands.length AnyTy),
      registry := dictInsert op.registry sig funcId }

end Op

namespace Core

/-- Errors raised by the `core.py` registration and call paths. -/
inductive CoreError where
  | arityMismatch
  | duplicateSignature
  | noMatchingSignature
  | noOperationForSignature
  | retryLimit
deriving DecidableEq, Repr

/-- An `Operation` object from `core.py`: named function wrapper with a
signature; the function itself is identified by a numeric id. -/
structure COperation where
  name : String
  signature : CSignature
  function : Nat
deriving DecidableEq, Repr

/-- `OperationList` from `core.py`: the list of registered variants plus
the operand count fixed by the first appended operation. -/
structure OperationList where
  data : List COperation
  argument_count : Option Nat
deriving Repr

/-- `OperationList.append`: the first append sets the prototype (operand
count); any append whose signature length differs raises
`ArgumentError`. -/
def OperationList.append (ol : OperationList) (op : COperation) :
    Except CoreError OperationList :=
  let ac :=
    match ol.argument_count with
    | none => op.signature.signature.length
    | some n => n
  if op.signature.signature.length ≠ ac then .error .arityMismatch
  else .ok ⟨ol.data ++ [op], some ac⟩

/-- The `self.operations` table of an `OperationContext`. -/
abbrev OpsTable : Type := List (String × OperationList)

/-- Lookup of a name in the operations table. -/
def opsFor (ops : OpsTable) (name : String) : OperationList :=
  ((ops.find? fun p => p.1 == name).map (·.2)).getD ⟨[], none⟩

/-- Replace the list bound to `name`. -/
def opsSet (ops : OpsTable) (name : String) (ol : OperationList) : OpsTable :=
  ops.map fun p => if p.1 == name then (p.1, ol) else p

/-- `OperationContext.add_operation` from `core.py` /
`execution/context.py`: create an empty list for a fresh name, reject a
duplicate signature with `ArgumentError`, else append. -/
def add_operation (ops : OpsTable) (op : COperation) :
    Except CoreError OpsTable :=
  let ops' :=
    if ops.any fun p => p.1 == op.name then ops else ops ++ [(op.name, ⟨[], none⟩)]
  if (opsFor ops' op.name).data.any fun c => c.signature == op.signature then
    .error .duplicateSignature
  else
    ((opsFor ops' op.name).append op).map fun ol => opsSet ops' op.name ol

/-- What invoking one registered function of `core.py`'s call loop does:
return normally or raise `RetryOperation` carrying the exact signature to
try next.  (`call` only handles retries that carry a signature: a retry
with `signature=None` would make `get_operation` fail; the claims here
concern signature-carrying retries.) -/
inductive CAttempt where
  | ok (r : Nat)
  | retry (sig : CSignature)
deriving Repr

/-- The default `retry_count` of `OperationContext.__init__`. -/
def defaultRetryCount : Nat := 10

/-- The `for i in range(0, self.retry_count)` loop of
`OperationContext.call`: look the operation up by the exact signature of
the most recent retry signal, invoke it, and either return its result,
follow the next retry signature, or — when the `retry_count` iterations
are used up — raise `RetryError("Operation retry limit reached")`.
Returns the result together with the total number of attempts made
(initial attempt included); `behavior f t` is the outcome of invoking
function `f` as overall attempt number `t`. -/
def callRetryLoop (getOp : CSignature → Option Nat)
    (behavior : Nat → Nat → CAttempt) :
    CSignature → Nat → Nat → Except CoreError Nat × Nat
  | _, attempts, 0 => (.error .retryLimit, attempts)
  | sig, attempts, n + 1 =>
    match getOp sig with
    | none => (.error .noOperationForSignature, attempts)
    | some f =>
      match behavior f attempts with
      | .ok r => (.ok r, attempts + 1)
      | .retry sig' => callRetryLoop getOp behavior sig' (attempts + 1) n

/-- `OperationContext.call` from the point where `lookup_operation` has
produced the initially matching function `f0` (or `none`): one initial
attempt, then the bounded retry loop. -/
def contextCall (getOp : CSignature → Option Nat) (lookup0 : Option Nat)
    (behavior : Nat → Nat → CAttempt) (retry_count : Nat) :
    Except CoreError Nat × Nat :=
  match lookup0 with
  | none => (.error .noMatchingSignature, 0)
  | some f0 =>
    match behavior f0 0 with
    | .ok r => (.ok r, 1)
    | .retry sig => callRetryLoop getOp behavior sig 1 retry_count

end Core

namespace Graph

/-- `Connection = namedtuple("Connection", ["source", "target", "outlet"])`
from `graph.py` / `execution/graph.py`.  Nodes are identity-keyed Python
objects, modelled by numeric ids. -/
structure Connection where
  source : Nat
  target : Nat
  outlet : String
deriving DecidableEq, Repr

/-- A `Graph`: the `nodes` ordered dict (name → node) and the
`connections` set (kept as a duplicate-free list). -/
structure GraphSt where
  nodes : List (String × Nat)
  connections : List Connection
deriving Repr

/-- `self.node(node)` succeeds for a node object iff it is one of
`self.nodes.values()`. -/
def hasNode (g : GraphSt) (n : Nat) : Bool :=
  g.nodes.any fun p => p.2 == n

/-- `outlet in self.sources(target)`: some connection into `target` uses
this outlet name. -/
def boundOutlet (g : GraphSt) (target : Nat) (outlet : String) : Bool :=
  g.connections.any fun c => c.target == target && c.outlet == outlet

/-- Failure modes of graph construction and `sorted_nodes`;
`fuelOut` is an artifact of the bounded loop embedding (the theorems
always supply sufficient fuel). -/
inductive GraphError where
  | unknownNode
  | duplicateNodeName
  | outletBound
  | cycle
  | fuelOut
deriving DecidableEq, Repr

/-- `Graph.add(node, name)` with an explicit name: fatal `KeyError` when
the name is taken, else store the node under the name. -/
def add (g : GraphSt) (name : String) (n : Nat) : Except GraphError GraphSt :=
  if g.nodes.any fun p => p.1 == name then .error .duplicateNodeName
  else .ok ⟨g.nodes ++ [(name, n)], g.connections⟩

/-- `Graph.connect(source, target, outlet)`: resolve both nodes (fatal
`ValueError` for an unknown node), fail with `GraphError` when the
`(target, outlet)` pair is already bound, else add the connection. -/
def connect (g : GraphSt) (source target : Nat) (outlet : String) :
    Except GraphError GraphSt :=
  if ¬ hasNode g source then .error .unknownNode
  else if ¬ hasNode g target then .error .unknownNode
  else if boundOutlet g target outlet then .error .outletBound
  else .ok ⟨g.nodes, g.connections ++ [⟨source, target, outlet⟩]⟩

/-- One `add`/`connect` call on a graph. -/
inductive GOp where
  | add (name : String) (n : Nat)
  | connect (source target : Nat) (outlet : String)

/-- Apply one call; a raised exception leaves the graph unchanged. -/
def applyOp (g : GraphSt) : GOp → GraphSt
  | .add name n => match add g name n with | .ok g' => g' | .error _ => g
  | .connect s t o => match connect g s t o with | .ok g' => g' | .error _ => g

/-- Any sequence of `add`/`connect` calls starting from `g`. -/
def applyOps (g : GraphSt) : List GOp → GraphSt
  | [] => g
  | o :: os => applyOps (applyOp g o) os

/-- `is_source(node, connections)` from `sorted_nodes`: no remaining
connection targets the node. -/
def is_source (node : Nat) (connections : List Connection) : Bool :=
  !(connections.any fun c => c.target == node)

/-- `source_connections(node, connections)`: the remaining out-edges of
`node`. -/
def source_connections (node : Nat) (connections : List Connection) :
    List Connection :=
  connections.filter fun c => c.source == node

/-- The inner `for connection in s_connections` loop of `sorted_nodes`:
remove each out-edge of the popped node and enqueue its target as soon
as it has no other incoming edge (set add: no duplicates). -/
def processOut : List Connection → List Connection → List Nat →
    List Connection × List Nat
  | [], conns, s => (conns, s)
  | c :: cs, conns, s =>
    let conns' := conns.erase c
    let s' :=
      if is_source c.target conns' ∧ ¬ c.target ∈ s then s ++ [c.target] else s
    processOut cs conns' s'

/-- The `while source_nodes` loop of `sorted_nodes`.  `pick` resolves the
unspecified order in which `set.pop()` returns elements: the popped node
is `s[pick s % len s]`.  When the source set empties, remaining
connections mean a cycle. -/
def kahnLoop (pick : List Nat → Nat) :
    List Nat → List Connection → List Nat → Nat →
      Except GraphError (List Nat)
  | [], conns, l, _ => if conns.isEmpty then .ok l else .error .cycle
  | _ :: _, _, _, 0 => .error .fuelOut
  | s@(_ :: _), conns, l, fuel + 1 =>
    let n := s.getD (pick s % s.length) 0
    let res := processOut (source_connections n conns) conns (s.erase n)
    kahnLoop pick res.2 res.1 (l ++ [n]) fuel

/-- `Graph.sorted_nodes()` (identical in `graph.py` and
`execution/graph.py`): Kahn's algorithm over the node set and a copy of
the connection set.  The supplied fuel dominates the loop measure
`2·|connections| + |sources|`. -/
def sorted_nodes (pick : List Nat → Nat) (nodes : List Nat)
    (connections : List Connection) : Except GraphError (List Nat) :=
  let s0 := nodes.filter fun n => is_source n connections
  kahnLoop pick s0 connections []
    (2 * connections.length + nodes.length + 1)

/-- The edge relation of a connection set. -/
def edgeRel (conns : List Connection) (a b : Nat) : Prop :=
  ∃ c ∈ conns, c.source = a ∧ c.target = b

/-- A graph contains a cycle iff some node reaches itself through a
non-empty chain of connections. -/
def HasCycle (conns : List Connection) : Prop :=
  ∃ n, Relation.TransGen (edgeRel conns) n n

/-- The binding-uniqueness relation between connections: two connections
never bind the same `(target, outlet)` pair. -/
def UniqueBinding (c1 c2 : Connection) : Prop :=
  ¬(c1.target = c2.target ∧ c1.outlet = c2.outlet)

/-- The loop invariant of `sorted_nodes` relative to the original node
list `nodes0` and connection set `conns0`: `s` is exactly the set of
not-yet-emitted nodes with no remaining incoming connection, remaining
connections join not-yet-emitted nodes, and every already-removed
connection respects the order of the emitted prefix `l`. -/
structure KahnInv (nodes0 : List Nat) (conns0 : List Connection)
    (s : List Nat) (conns : List Connection) (l : List Nat) : Prop where
  conns_nd : conns.Nodup
  conns_sub : ∀ c ∈ conns, c ∈ conns0
  s_nd : s.Nodup
  l_nd : l.Nodup
  s_l : ∀ x ∈ s, x ∉ l
  s_nodes : ∀ x ∈ s, x ∈ nodes0
  l_nodes : ∀ x ∈ l, x ∈ nodes0
  exact_s : ∀ x ∈ nodes0, x ∈ s ↔ (x ∉ l ∧ is_source x conns = true)
  rem_src : ∀ c ∈ conns, c.source ∉ l
  rem_tgt : ∀ c ∈ conns, c.target ∉ l
  topo : ∀ c ∈ conns0, c ∉ conns → c.source ∈ l ∧
    (c.target ∈ l → l.indexOf c.source < l.indexOf c.target)

end Graph

namespace Engine

/-- Events recorded while `ExecutionEngine.run` executes, in program
order: storing a step's evaluation result, a `retained()` conversion
(recording the consumable value handed to `retained()`), and a read of a
node's result through a bound outlet (recording the value appended to
the operand list). -/
inductive Event (V : Type) where
  | evalE (node : Nat) (value : V)
  | retainE (node : Nat) (value : V)
  | readE (node : Nat) (value : V)
deriving DecidableEq, Repr

/-- The node an event belongs to. -/
def eventNode : Event V → Nat
  | .evalE n _ => n
  | .retainE n _ => n
  | .readE n _ => n

/-- The Data Object contract `run` relies on, plus per-node evaluation:
`evalNode n vs` is what `node.evaluate(engine, context, vs)` returns,
and `init` models the `None` initially stored in
`ExecutionStep.result`. -/
structure EngCfg (V : Type) where
  isConsumable : V → Bool
  retained : V → V
  evalNode : Nat → List V → V
  init : V

/-- One `ExecutionStep`: the wrapped node and the producing nodes bound
to its outlets.  `node_steps` maps each node to its unique step, so
outlet references are stored per producing node. -/
structure EStep where
  node : Nat
  outlets : List Nat
deriving Repr

/-- `ExecutionPlan`: topologically ordered steps plus the consumption
counter computed once by `execution_plan`. -/
structure EPlan where
  steps : List EStep
  consumption : Nat → Nat

/-- The mutable state of `run`: each node's current `step.result`, the
`consumed` set, and the event log. -/
structure RunState (V : Type) where
  results : Nat → V
  consumed : List Nat
  log : List (Event V)

/-- Point update of the per-node result store. -/
def updateRes (f : Nat → V) (n : Nat) (v : V) : Nat → V :=
  fun m => if m = n then v else f m

/-- One iteration of the `for outlet in step.outlets` loop of `run`:
when the producing node's result is consumable and its consumption count
exceeds 1 and it was not consumed yet, replace the stored result by its
`retained()` conversion; always mark the node consumed; hand the
(possibly retained) stored value to the operand list. -/
def readOutlet (E : EngCfg V) (consumption : Nat → Nat) (st : RunState V)
    (n : Nat) : RunState V × V :=
  let r := st.results n
  if E.isConsumable r = true ∧ 1 < consumption n then
    if ¬ n ∈ st.consumed then
      let r' := E.retained r
      (⟨updateRes st.results n r', n :: st.consumed,
        st.log ++ [.retainE n r, .readE n r']⟩, r')
    else
      (⟨st.results, n :: st.consumed, st.log ++ [.readE n r]⟩, r)
  else
    (⟨st.results, n :: st.consumed, st.log ++ [.readE n r]⟩, r)

/-- Gather a step's operand values, threading the run state. -/
def readOutlets (E : EngCfg V) (consumption : Nat → Nat) :
    RunState V → List Nat → RunState V × List V
  | st, [] => (st, [])
  | st, n :: ns =>
    let p := readOutlet E consumption st n
    let q := readOutlets E consumption p.1 ns
    (q.1, p.2 :: q.2)

/-- Execute one step: gather operands, evaluate the node, store the
result on the step. -/
def runStep (E : EngCfg V) (consumption : Nat → Nat) (st : RunState V)
    (step : EStep) : RunState V :=
  let p := readOutlets E consumption st step.outlets
  let v := E.evalNode step.node p.2
  ⟨updateRes p.1.results step.node v, p.1.consumed,
    p.1.log ++ [.evalE step.node v]⟩

/-- `ExecutionEngine.run` over a prepared plan. -/
def run (E : EngCfg V) (plan : EPlan) : RunState V :=
  plan.steps.foldl (runStep E plan.consumption) ⟨fun _ => E.init, [], []⟩

/-- The events of node `n`, in order. -/
def projOf (n : Nat) (log : List (Event V)) : List (Event V) :=
  log.filter fun e => eventNode e == n

/-- Number of `retained()` conversions of node `n` in the log. -/
def retainCountL (log : List (Event V)) (n : Nat) : Nat :=
  log.countP fun e => match e with | .retainE m _ => m == n | _ => false

/-- Number of reads of node `n` in the log. -/
def readCountL (log : List (Event V)) (n : Nat) : Nat :=
  log.countP fun e => match e with | .readE m _ => m == n | _ => false

/-- Total number of outlet references to node `n` in a step list. -/
def countOutlets (steps : List EStep) (n : Nat) : Nat :=
  (steps.map fun s => s.outlets.count n).sum

/-- The legal shapes of one node's event history during a run, together
with the node's currently stored result: unevaluated; evaluated and
never read; evaluated and read `k` times without retention (only when
the result is not consumable or has at most one consumer); or evaluated,
retained at the first read, and read `k` times, every read receiving the
retained value. -/
inductive HistOK (E : EngCfg V) (cnt : Nat) (n : Nat) :
    List (Event V) → V → Prop
  | empty : HistOK E cnt n [] E.init
  | evald (v : V) : HistOK E cnt n [.evalE n v] v
  | plain (v : V) (k : Nat) (hk : 1 ≤ k)
      (hno : ¬(E.isConsumable v = true ∧ 1 < cnt)) :
      HistOK E cnt n (.evalE n v :: List.replicate k (.readE n v)) v
  | retained (v : V) (k : Nat) (hk : 1 ≤ k)
      (hc : E.isConsumable v = true) (hcnt : 1 < cnt) :
      HistOK E cnt n
        (.evalE n v :: .retainE n v ::
          List.replicate k (.readE n (E.retained v)))
        (E.retained v)

/-- The run invariant after a prefix `done` of the plan's steps. -/
structure EngInv (E : EngCfg V) (cons : Nat → Nat) (doneNodes : List Nat)
    (st : RunState V) : Prop where
  hist : ∀ n, HistOK E (cons n) n (projOf n st.log) (st.results n)
  cons_read : ∀ n, n ∈ st.consumed ↔ 1 ≤ readCountL st.log n
  done_iff : ∀ n, n ∈ doneNodes ↔ projOf n st.log ≠ []

/-- Well-formedness of an execution plan's step list, as
`execution_plan` produces it from a topologically sorted acyclic graph:
relative to the already-emitted nodes `done`, each step's node is fresh
(each node owns one step) and all its bound outlets reference earlier
steps' nodes. -/
inductive WFPlan : List Nat → List EStep → Prop
  | nil (done : List Nat) : WFPlan done []
  | cons (done : List Nat) (s : EStep) (todo : List EStep)
      (hnode : s.node ∉ done) (houts : ∀ o ∈ s.outlets, o ∈ done)
      (hrest : WFPlan (done ++ [s.node]) todo) : WFPlan done (s :: todo)

end Engine

/-- `rep_to_operand` carries exactly the data of `to_type` plus the
precomputed wildcard test. -/
theorem rep_to_operand_eq_to_type (rep : String) :
    Core.rep_to_operand rep =
      ⟨(Op.to_type rep).specifier, (Op.to_type rep).islist,
        (Op.to_type rep).specifier == "*"⟩ := by
  unfold Core.rep_to_operand Op.to_type
  by_cases h : Op.strEndsWith rep "[]" <;> simp [h]

/-- Pointwise agreement of the two per-position tests. -/
theorem match_pointwise (y x : String) :
    ((Core.rep_to_operand y).islist == (Core.rep_to_operand x).islist &&
      ((Core.rep_to_operand y).isany ||
        (Core.rep_to_operand y).rep == (Core.rep_to_operand x).rep)) =
    ((Op.to_type y).islist == (Op.to_type x).islist &&
      ((Op.to_type y).specifier == Op.ANY_SPECIFIER ||
        (Op.to_type y).specifier == (Op.to_type x).specifier)) := by
  rw [rep_to_operand_eq_to_type, rep_to_operand_eq_to_type]
  rfl

/-- The two signature-matching implementations (`op.py`'s
`Signature.match` and `core.py`/`operation.py`'s `Signature.matches`)
agree on all inputs. -/
theorem csignature_matches_eq_signature_matches
    (tys : List String) (ts : List String) :
    (Core.CSignature.mk tys).matches ts =
      (Op.Signature.ofStrings tys).matches ts := by
  unfold Core.CSignature.matches Op.Signature.matches Op.Signature.ofStrings
    Core.CSignature.operands
  simp only [List.length_map]
  congr 1
  induction tys generalizing ts with
  | nil => cases ts <;> rfl
  | cons y ys ih =>
    cases ts with
    | nil => rfl
    | cons x xs =>
      simp only [List.map_cons, List.zip_cons_cons, List.all_cons, ih xs]
      rw [match_pointwise]

/-- A boolean `all` over a zip of two lists holds iff the test holds at
every common position. -/
theorem zip_all_iff_forall {α β : Type} (p : α → β → Bool) :
    ∀ (l1 : List α) (l2 : List β),
      ((l1.zip l2).all fun ab => p ab.1 ab.2) = true ↔
        ∀ (i : Nat) (h1 : i < l1.length) (h2 : i < l2.length),
          p (l1.get ⟨i, h1⟩) (l2.get ⟨i, h2⟩) = true := by
  intro l1
  induction l1 with
  | nil => intro l2; simp
  | cons a l1 ih =>
    intro l2
    cases l2 with
    | nil => simp
    | cons b l2 =>
      simp only [List.zip_cons_cons, List.all_cons, Bool.and_eq_true, ih]
      constructor
      · rintro ⟨hab, hrest⟩ i h1 h2
        cases i with
        | zero => exact hab
        | succ i =>
          exact hrest i (Nat.lt_of_succ_lt_succ h1) (Nat.lt_of_succ_lt_succ h2)
      · intro h
        refine ⟨h 0 (by simp) (by simp), fun i h1 h2 => ?_⟩
        exact h (i + 1) (Nat.succ_lt_succ h1) (Nat.succ_lt_succ h2)

/-- C6: `Signature.match` returns true iff the arities agree and at every
position the list flags agree and the matcher is the wildcard or equals
the concrete tag; `core.py`'s `Signature.matches` computes the same
function, and the five concrete examples from the spec hold. -/
theorem signature_match_characterization :
    (∀ (s : Op.Signature) (ts : List String),
      s.matches ts = true ↔
        (ts.length = s.operands.length ∧
          ∀ (i : Nat) (h1 : i < s.operands.length) (h2 : i < ts.length),
            (s.operands.get ⟨i, h1⟩).islist =
                (Op.to_type (ts.get ⟨i, h2⟩)).islist ∧
              ((s.operands.get ⟨i, h1⟩).specifier = Op.ANY_SPECIFIER ∨
                (s.operands.get ⟨i, h1⟩).specifier =
                  (Op.to_type (ts.get ⟨i, h2⟩)).specifier))) ∧
    (∀ (tys ts : List String),
      (Core.CSignature.mk tys).matches ts =
        (Op.Signature.ofStrings tys).matches ts) ∧
    (Op.Signature.ofStrings ["sql"]).matches ["sql"] = true ∧
    (Op.Signature.ofStrings ["*"]).matches ["sql"] = true ∧
    (Op.Signature.ofStrings ["sql[]"]).matches ["sql[]"] = true ∧
    (Op.Signature.ofStrings ["sql"]).matches ["sql[]"] = false ∧
    (Op.Signature.ofStrings ["sql"]).matches ["rows"] = false := by
  refine ⟨?_, csignature_matches_eq_signature_matches, by decide, by decide,
    by decide, by decide, by decide⟩
  intro s ts
  unfold Op.Signature.matches
  rw [Bool.and_eq_true, beq_iff_eq]
  have hz := zip_all_iff_forall
    (fun (m : Op.Ty) (t : Op.Ty) =>
      m.islist == t.islist &&
        (m.specifier == Op.ANY_SPECIFIER || m.specifier == t.specifier))
    s.operands (ts.map Op.to_type)
  rw [hz]
  constructor
  · rintro ⟨hlen, hall⟩
    refine ⟨hlen, fun i h1 h2 => ?_⟩
    have h2' : i < (ts.map Op.to_type).length := by
      simpa using h2
    have := hall i h1 h2'
    rw [List.get_map] at this
    simpa [Bool.and_eq_true, Bool.or_eq_true] using this
  · rintro ⟨hlen, hall⟩
    refine ⟨hlen, fun i h1 h2 => ?_⟩
    have h2' : i < ts.length := by simpa using h2
    have := hall i h1 h2'
    rw [List.get_map]
    simpa [Bool.and_eq_true, Bool.or_eq_true] using this

/-- `insertAt` produces a permutation of pushing at the head. -/
theorem insertAt_perm (n : Nat) (x : α) (l : List α) :
    (Op.insertAt n x l).Perm (x :: l) := by
  unfold Op.insertAt
  calc (l.take n ++ x :: l.drop n).Perm (x :: (l.take n ++ l.drop n)) :=
        List.perm_middle
    _ = x :: l := by rw [List.take_append_drop]

/-- Binary insertion sort permutes its input. -/
theorem binInsSort_perm (lt : α → α → Bool) :
    ∀ (xs sorted : List α), (Op.binInsSort lt sorted xs).Perm (sorted ++ xs) := by
  intro xs
  induction xs with
  | nil => intro sorted; simp [Op.binInsSort]
  | cons x xs ih =>
    intro sorted
    calc (Op.binInsSort lt sorted (x :: xs)).Perm
          (Op.insertAt (Op.binInsertPosAux lt sorted x (sorted.length + 1) 0
            sorted.length) x sorted ++ xs) := ih _
      _ |>.Perm ((x :: sorted) ++ xs) :=
          (insertAt_perm _ x sorted).append_right xs
      _ |>.Perm (sorted ++ x :: xs) := List.perm_middle.symm

/-- `pysorted` permutes its input. -/
theorem pysorted_perm (lt : α → α → Bool) (l : List α) :
    (Op.pysorted lt l).Perm l := by
  simpa using binInsSort_perm lt l []

/-- Occurrences of `a` in a filtered list. -/
theorem count_filter_ite [DecidableEq α] (p : α → Bool) (a : α) (l : List α) :
    (l.filter p).count a = if p a then l.count a else 0 := by
  induction l with
  | nil => simp
  | cons x xs ih =>
    by_cases hpx : p x = true
    · by_cases hax : x = a
      · subst hax
        simp [List.filter_cons, hpx, List.count_cons, ih]
      · simp [List.filter_cons, hpx, List.count_cons, ih, hax]
    · by_cases hax : x = a
      · subst hax
        simp [List.filter_cons, hpx, List.count_cons, ih]
      · simp [List.filter_cons, hpx, List.count_cons, ih, hax]

/-- Counting a signature in the per-combination concatenation. -/
theorem count_bind_filter (sigs : List Op.Signature) (sig : Op.Signature) :
    ∀ (combos : List (List String)),
      ((combos.flatMap fun c => sigs.filter fun s => s.matches c).count sig) =
        (combos.countP fun c => sig.matches c) * sigs.count sig := by
  intro combos
  induction combos with
  | nil => simp
  | cons c cs ih =>
    rw [List.flatMap_cons, List.count_append, ih, List.countP_cons,
      count_filter_ite]
    by_cases h : sig.matches c = true <;>
      simp [h, Nat.add_mul, Nat.add_comm]

/-- C1 (failing input): with implementations registered for `("sql")`
(id 1) and `("*")` (id 2) — in either registration order — and a single
operand whose tags are `["sql", "rows"]`, `op.py` computes the resolution
order `[("*"), ("sql"), ("*")]`: the wildcard signature comes FIRST
(because `Signature.__lt__` orders wildcard signatures before concrete
ones and `resolution_order` scans `sorted_signatures` in ascending
order), and `dispatch` therefore invokes the `("*")` implementation and
returns its result 2.  This contradicts the claim and the docstring of
`resolution_order` ("The generic signatures … are placed at the end of
the list"). -/
theorem wildcard_preferred_over_exact_code_bug :
    ((Op.Operation.mk "op"
        [(Op.Signature.ofStrings ["sql"], 1), (Op.Signature.ofStrings ["*"], 2)]
      ).resolution_order [["sql", "rows"]] =
      .ok [Op.Signature.ofStrings ["*"], Op.Signature.ofStrings ["sql"],
        Op.Signature.ofStrings ["*"]]) ∧
    ((Op.Operation.mk "op"
        [(Op.Signature.ofStrings ["*"], 2), (Op.Signature.ofStrings ["sql"], 1)]
      ).resolution_order [["sql", "rows"]] =
      .ok [Op.Signature.ofStrings ["*"], Op.Signature.ofStrings ["sql"],
        Op.Signature.ofStrings ["*"]]) ∧
    ((Op.Operation.mk "op"
        [(Op.Signature.ofStrings ["sql"], 1), (Op.Signature.ofStrings ["*"], 2)]
      ).dispatch true (fun implId _ => .ok implId) [["sql", "rows"]] 10 =
      ([(Op.Signature.ofStrings ["*"], 0)], .ok 2)) :=
  ⟨rfl, rfl, rfl⟩

/-- C9: `resolution_order` appends one entry per (representation
combination, matching signature) pair — the number of occurrences of a
registered signature equals (number of matching combinations) ×
(occurrences among the registry keys) — and during dispatch a queued
duplicate of an already-visited signature is invoked again: with only
`("*")` registered and operand tags `["sql", "rows"]`, the resolution
order is `[("*"), ("*")]`, and an implementation that retries without an
alternative on its first attempt is re-invoked with the same signature
and its second-attempt result is returned. -/
theorem resolution_multiplicity_and_requeue :
    (∀ (op : Op.Operation) (types : List (List String)) (sig : Op.Signature),
      (op.resolutionMatches types).count sig =
        ((Op.product types).countP fun c => sig.matches c) *
          (op.signatures.count sig)) ∧
    ((Op.Operation.mk "op" [(Op.Signature.ofStrings ["*"], 1)]
      ).resolution_order [["sql", "rows"]] =
      .ok [Op.Signature.ofStrings ["*"], Op.Signature.ofStrings ["*"]]) ∧
    ((Op.Operation.mk "op" [(Op.Signature.ofStrings ["*"], 1)]
      ).dispatch true (fun _ t => if t = 0 then .retry none else .ok 7)
        [["sql", "rows"]] 10 =
      ([(Op.Signature.ofStrings ["*"], 0), (Op.Signature.ofStrings ["*"], 1)],
        .ok 7)) := by
  refine ⟨?_, rfl, rfl⟩
  intro op types sig
  unfold Op.Operation.resolutionMatches
  rw [count_bind_filter]
  have hperm : (Op.Operation.sorted_signatures op).Perm op.signatures :=
    pysorted_perm _ _
  rw [hperm.count_eq]

/-- C3: when an invoked implementation raises a retry signal carrying an
alternative signature: if the alternative is already in the visited set,
dispatch fails fatally; otherwise the alternative is inserted at the
front of the remaining queue — so its implementation is the very next one
invoked — and if that invocation returns normally its result is returned
and no further candidates execute (the trace ends there). -/
theorem dispatch_retry_alternative_front :
    (∀ (registry : List (Op.Signature × Nat))
      (behavior : Nat → Nat → Op.AttemptOutcome)
      (sig : Op.Signature) (rest visited : List Op.Signature)
      (t : Nat) (trace : List (Op.Signature × Nat)) (fuel implId : Nat)
      (tys : List String),
      Op.lookupSig registry sig = some implId →
      behavior implId t = .retry (some tys) →
      Op.Signature.ofStrings tys ∈ sig :: visited →
      Op.dispatchLoop true registry behavior (sig :: rest) visited t trace
          (fuel + 1) =
        (trace ++ [(sig, t)], .error .alreadyVisited)) ∧
    (∀ (registry : List (Op.Signature × Nat))
      (behavior : Nat → Nat → Op.AttemptOutcome)
      (sig : Op.Signature) (rest visited : List Op.Signature)
      (t : Nat) (trace : List (Op.Signature × Nat)) (fuel implId : Nat)
      (tys : List String),
      Op.lookupSig registry sig = some implId →
      behavior implId t = .retry (some tys) →
      Op.Signature.ofStrings tys ∉ sig :: visited →
      Op.dispatchLoop true registry behavior (sig :: rest) visited t trace
          (fuel + 1) =
        Op.dispatchLoop true registry behavior
          (Op.Signature.ofStrings tys :: rest) (sig :: visited) (t + 1)
          (trace ++ [(sig, t)]) fuel) ∧
    (∀ (registry : List (Op.Signature × Nat))
      (behavior : Nat → Nat → Op.AttemptOutcome)
      (sig : Op.Signature) (rest visited : List Op.Signature)
      (t : Nat) (trace : List (Op.Signature × Nat)) (fuel implId implId2 r : Nat)
      (tys : List String),
      Op.lookupSig registry sig = some implId →
      behavior implId t = .retry (some tys) →
      Op.Signature.ofStrings tys ∉ sig :: visited →
      Op.lookupSig registry (Op.Signature.ofStrings tys) = some implId2 →
      behavior implId2 (t + 1) = .ok r →
      Op.dispatchLoop true registry behavior (sig :: rest) visited t trace
          (fuel + 2) =
        (trace ++ [(sig, t), (Op.Signature.ofStrings tys, t + 1)], .ok r)) := by
  refine ⟨?_, ?_, ?_⟩
  · intro registry behavior sig rest visited t trace fuel implId tys
      hlook hbeh hmem
    simp [Op.dispatchLoop, hlook, hbeh, hmem]
  · intro registry behavior sig rest visited t trace fuel implId tys
      hlook hbeh hmem
    simp [Op.dispatchLoop, hlook, hbeh, hmem]
  · intro registry behavior sig rest visited t trace fuel implId implId2 r tys
      hlook hbeh hmem hlook2 hbeh2
    simp [Op.dispatchLoop, hlook, hbeh, hmem, hlook2, hbeh2]

/-- Witness for `dispatch_retry_alternative_front`: the spec's example
registry — `("sql","sql")` (id 1) retries with alternative
`("sql","rows")`, whose implementation (id 2) returns 42 — runs the
alternative next and returns its result with no further invocations. -/
theorem dispatch_retry_alternative_front_witness :
    Op.dispatchLoop true
        [(Op.Signature.ofStrings ["sql", "sql"], 1),
          (Op.Signature.ofStrings ["sql", "rows"], 2)]
        (fun implId _ => if implId = 1 then .retry (some ["sql", "rows"]) else .ok 42)
        [Op.Signature.ofStrings ["sql", "sql"]] [] 0 [] 2 =
      ([(Op.Signature.ofStrings ["sql", "sql"], 0),
        (Op.Signature.ofStrings ["sql", "rows"], 1)], .ok 42) :=
  dispatch_retry_alternative_front.2.2
    [(Op.Signature.ofStrings ["sql", "sql"], 1),
      (Op.Signature.ofStrings ["sql", "rows"], 2)]
    (fun implId _ => if implId = 1 then .retry (some ["sql", "rows"]) else .ok 42)
    (Op.Signature.ofStrings ["sql", "sql"]) [] [] 0 [] 0 1 2 42
    ["sql", "rows"] rfl rfl (by decide) rfl rfl

/-- C4 evidence: a retry signal carrying no alternative continues with
the next queued candidate, pushing nothing (first conjunct); but when
every candidate retries without an alternative, the moment the queue
empties the `retry = resolution_order[0]` peek raises an uncaught
`IndexError` — the loop's own trailing "resolution exhausted" raise is
never reached (second and third conjuncts). -/
theorem dispatch_exhaustion_raises_index_error :
    (∀ (registry : List (Op.Signature × Nat))
      (behavior : Nat → Nat → Op.AttemptOutcome)
      (sig y : Op.Signature) (ys visited : List Op.Signature)
      (t : Nat) (trace : List (Op.Signature × Nat)) (fuel implId : Nat),
      Op.lookupSig registry sig = some implId →
      behavior implId t = .retry none →
      Op.dispatchLoop true registry behavior (sig :: y :: ys) visited t trace
          (fuel + 1) =
        Op.dispatchLoop true registry behavior (y :: ys) (sig :: visited)
          (t + 1) (trace ++ [(sig, t)]) fuel) ∧
    (∀ (registry : List (Op.Signature × Nat))
      (behavior : Nat → Nat → Op.AttemptOutcome)
      (queue visited : List Op.Signature)
      (t : Nat) (trace : List (Op.Signature × Nat)) (fuel : Nat),
      queue ≠ [] →
      queue.length ≤ fuel →
      (∀ s ∈ queue, (Op.lookupSig registry s).isSome) →
      (∀ implId u, behavior implId u = .retry none) →
      (Op.dispatchLoop true registry behavior queue visited t trace fuel).2 =
        .error .emptyQueuePeek) ∧
    ((Op.Operation.mk "op" [(Op.Signature.ofStrings ["sql"], 1)]).dispatch
        true (fun _ _ => .retry none) [["sql"]] 10 =
      ([(Op.Signature.ofStrings ["sql"], 0)], .error .emptyQueuePeek)) := by
  refine ⟨?_, ?_, rfl⟩
  · intro registry behavior sig y ys visited t trace fuel implId hlook hbeh
    simp [Op.dispatchLoop, hlook, hbeh]
  · intro registry behavior queue
    induction queue with
    | nil => intro _ _ _ _ hne; exact absurd rfl hne
    | cons sig rest ih =>
      intro visited t trace fuel _ hfuel hlook hbeh
      cases fuel with
      | zero => simp at hfuel
      | succ f =>
        have hsig := hlook sig (by simp)
        obtain ⟨implId, himpl⟩ := Option.isSome_iff_exists.mp hsig
        cases rest with
        | nil => simp [Op.dispatchLoop, himpl, hbeh]
        | cons y ys =>
          rw [show Op.dispatchLoop true registry behavior
              (sig :: y :: ys) visited t trace (f + 1) =
            Op.dispatchLoop true registry behavior (y :: ys) (sig :: visited)
              (t + 1) (trace ++ [(sig, t)]) f by
            simp [Op.dispatchLoop, himpl, hbeh]]
          exact ih (sig :: visited) (t + 1) (trace ++ [(sig, t)]) f
            (by simp) (by simpa using Nat.le_of_succ_le_succ hfuel)
            (fun s hs => hlook s (by simp [hs])) hbeh

/-- Witness for `dispatch_exhaustion_raises_index_error`: a two-candidate
queue where every implementation retries without an alternative ends in
the `IndexError` outcome. -/
theorem dispatch_exhaustion_witness :
    (Op.dispatchLoop true [(Op.Signature.ofStrings ["sql"], 1)]
        (fun _ _ => Op.AttemptOutcome.retry none)
        [Op.Signature.ofStrings ["sql"], Op.Signature.ofStrings ["sql"]]
        [] 0 [] 5).2 = .error .emptyQueuePeek :=
  dispatch_exhaustion_raises_index_error.2.1
    [(Op.Signature.ofStrings ["sql"], 1)]
    (fun _ _ => Op.AttemptOutcome.retry none)
    [Op.Signature.ofStrings ["sql"], Op.Signature.ofStrings ["sql"]]
    [] 0 [] 5 (by decide) (by decide) (by decide) (fun _ _ => rfl)

/-- Witness for `signature_match_characterization`: instantiating the
characterization at `Signature("sql")` matching `("sql",)`. -/
theorem signature_match_characterization_witness :
    (["sql"] : List String).length =
        (Op.Signature.ofStrings ["sql"]).operands.length ∧
      ∀ (i : Nat) (h1 : i < (Op.Signature.ofStrings ["sql"]).operands.length)
        (h2 : i < (["sql"] : List String).length),
        ((Op.Signature.ofStrings ["sql"]).operands.get ⟨i, h1⟩).islist =
            (Op.to_type ((["sql"] : List String).get ⟨i, h2⟩)).islist ∧
          (((Op.Signature.ofStrings ["sql"]).operands.get ⟨i, h1⟩).specifier =
              Op.ANY_SPECIFIER ∨
            ((Op.Signature.ofStrings ["sql"]).operands.get ⟨i, h1⟩).specifier =
              (Op.to_type ((["sql"] : List String).get ⟨i, h2⟩)).specifier) :=
  (signature_match_characterization.1
    (Op.Signature.ofStrings ["sql"]) ["sql"]).mp rfl

/-- Looking a name up after `opsSet` on a table that contains it. -/
theorem opsFor_opsSet (t : Core.OpsTable) (name : String)
    (ol : Core.OperationList) (h : (t.any fun p => p.1 == name) = true) :
    Core.opsFor (Core.opsSet t name ol) name = ol := by
  induction t with
  | nil => simp at h
  | cons p ps ih =>
    by_cases hp : p.1 == name
    · simp [Core.opsSet, Core.opsFor, List.find?, hp]
    · have h' : (ps.any fun q => q.1 == name) = true := by
        simpa [List.any_cons, hp] using h
      have := ih h'
      simpa [Core.opsSet, Core.opsFor, List.find?, hp] using this

/-- Looking a fresh name up after appending its entry. -/
theorem opsFor_append_fresh (t : Core.OpsTable) (name : String)
    (ol : Core.OperationList) (h : (t.any fun p => p.1 == name) = false) :
    Core.opsFor (t ++ [(name, ol)]) name = ol := by
  induction t with
  | nil => simp [Core.opsFor, List.find?]
  | cons p ps ih =>
    have hp : (p.1 == name) = false := by
      by_contra hc
      simp [List.any_cons, eq_true_of_ne_false hc] at h
    have h' : (ps.any fun q => q.1 == name) = false := by
      simpa [List.any_cons, hp] using h
    simpa [Core.opsFor, List.find?, hp] using ih h'

/-- A name absent from the table resolves to the fresh empty list. -/
theorem opsFor_of_not_any (t : Core.OpsTable) (name : String)
    (h : (t.any fun p => p.1 == name) = false) :
    Core.opsFor t name = ⟨[], none⟩ := by
  induction t with
  | nil => rfl
  | cons p ps ih =>
    have hp : (p.1 == name) = false := by
      by_contra hc
      simp [List.any_cons, eq_true_of_ne_false hc] at h
    have h' : (ps.any fun q => q.1 == name) = false := by
      simpa [List.any_cons, hp] using h
    simpa [Core.opsFor, List.find?, hp] using ih h'

/-- C7 counterexample: `op.py`'s `Operation.register` has no duplicate
check — re-registering the already-registered signature `("sql")`
succeeds and silently replaces the stored implementation (id 1 becomes
id 2), instead of failing fatally. -/
theorem register_duplicate_signature_not_rejected :
    (Op.OperationReg.mk "op" (some [Op.AnyTy])
        [(Op.Signature.ofStrings ["sql"], 1)]).register
      (Op.Signature.ofStrings ["sql"]) 2 =
    .ok (Op.OperationReg.mk "op" (some [Op.AnyTy])
        [(Op.Signature.ofStrings ["sql"], 2)]) := rfl

/-- C7 amended: `OperationContext.add_operation` (`core.py` /
`execution/context.py`) rejects a duplicate signature with a fatal
`ArgumentError`, leaving the registration table unchanged (the error is
raised before any mutation of an existing entry), while a fresh
signature of matching arity is appended after the existing
registrations. -/
theorem add_operation_duplicate_rejected :
    (∀ (ops : Core.OpsTable) (op : Core.COperation),
      (∃ c ∈ (Core.opsFor ops op.name).data, c.signature = op.signature) →
      Core.add_operation ops op = .error .duplicateSignature) ∧
    (∀ (ops : Core.OpsTable) (op : Core.COperation),
      (¬ ∃ c ∈ (Core.opsFor ops op.name).data, c.signature = op.signature) →
      ((Core.opsFor ops op.name).argument_count = none ∨
        (Core.opsFor ops op.name).argument_count =
          some op.signature.signature.length) →
      ∃ ops2, Core.add_operation ops op = .ok ops2 ∧
        (Core.opsFor ops2 op.name).data =
          (Core.opsFor ops op.name).data ++ [op]) := by
  constructor
  · intro ops op hdup
    unfold Core.add_operation
    by_cases hname : (ops.any fun p => p.1 == op.name) = true
    · have hany : ((Core.opsFor ops op.name).data.any
          fun c => c.signature == op.signature) = true := by
        rw [List.any_eq_true]
        obtain ⟨c, hc, he⟩ := hdup
        exact ⟨c, hc, by simpa using he⟩
      simp [hname, hany]
    · rw [Bool.not_eq_true] at hname
      rw [opsFor_of_not_any ops op.name hname] at hdup
      simp at hdup
  · intro ops op hdup harity
    unfold Core.add_operation
    by_cases hname : (ops.any fun p => p.1 == op.name) = true
    · have hany : ((Core.opsFor ops op.name).data.any
          fun c => c.signature == op.signature) = false := by
        rw [Bool.eq_false_iff]
        intro hc
        rw [List.any_eq_true] at hc
        obtain ⟨c, hcm, he⟩ := hc
        exact hdup ⟨c, hcm, by simpa using he⟩
      have happ : (Core.opsFor ops op.name).append op =
          .ok ⟨(Core.opsFor ops op.name).data ++ [op],
            some op.signature.signature.length⟩ := by
        unfold Core.OperationList.append
        rcases harity with h | h <;> simp [h]
      refine ⟨Core.opsSet ops op.name
        ⟨(Core.opsFor ops op.name).data ++ [op],
          some op.signature.signature.length⟩, ?_, ?_⟩
      · simp [hname, hany, happ, Except.map]
      · rw [opsFor_opsSet ops op.name _ hname]
    · rw [Bool.not_eq_true] at hname
      have hfresh := opsFor_of_not_any ops op.name hname
      have hfor : Core.opsFor (ops ++ [(op.name, ⟨[], none⟩)]) op.name =
          ⟨[], none⟩ := opsFor_append_fresh ops op.name _ hname
      have hany2 : ((ops ++ [(op.name, (⟨[], none⟩ : Core.OperationList))]).any
          fun p => p.1 == op.name) = true := by
        rw [List.any_eq_true]
        exact ⟨(op.name, ⟨[], none⟩), by simp, by simp⟩
      refine ⟨Core.opsSet (ops ++ [(op.name, ⟨[], none⟩)]) op.name
        ⟨[op], some op.signature.signature.length⟩, ?_, ?_⟩
      · simp only [hname, Bool.false_eq_true, if_false, hfor]
        simp [Core.OperationList.append, Except.map]
      · rw [opsFor_opsSet _ op.name _ hany2, hfresh]
        simp

/-- Witness for `add_operation_duplicate_rejected`: adding `distinct`
with signature `("sql",)` twice to a fresh context fails the second time
with the duplicate-signature error. -/
theorem add_operation_duplicate_rejected_witness :
    Core.add_operation
        [("distinct", ⟨[Core.COperation.mk "distinct" ⟨["sql"]⟩ 1], some 1⟩)]
        (Core.COperation.mk "distinct" ⟨["sql"]⟩ 2) =
      .error .duplicateSignature :=
  add_operation_duplicate_rejected.1
    [("distinct", ⟨[Core.COperation.mk "distinct" ⟨["sql"]⟩ 1], some 1⟩)]
    (Core.COperation.mk "distinct" ⟨["sql"]⟩ 2)
    ⟨Core.COperation.mk "distinct" ⟨["sql"]⟩ 1, by simp [Core.opsFor, List.find?], rfl⟩

/-- The retry loop makes at most `n` further attempts. -/
theorem callRetryLoop_attempts_le (getOp : Core.CSignature → Option Nat)
    (behavior : Nat → Nat → Core.CAttempt) :
    ∀ (n : Nat) (sig : Core.CSignature) (attempts : Nat),
      (Core.callRetryLoop getOp behavior sig attempts n).2 ≤ attempts + n := by
  intro n
  induction n with
  | zero => intro sig attempts; simp [Core.callRetryLoop]
  | succ n ih =>
    intro sig attempts
    cases hg : getOp sig with
    | none => simp [Core.callRetryLoop, hg]
    | some f =>
      cases hb : behavior f attempts with
      | ok r => simp [Core.callRetryLoop, hg, hb] <;> omega
      | retry sig' =>
        have := ih sig' (attempts + 1)
        simp only [Core.callRetryLoop, hg, hb]
        omega

/-- When every invocation retries (with a registered signature), the
loop uses all its iterations and ends in the retry-limit error. -/
theorem callRetryLoop_all_retry (getOp : Core.CSignature → Option Nat)
    (behavior : Nat → Nat → Core.CAttempt)
    (hro : ∀ f t, ∃ sig', behavior f t = .retry sig')
    (hga : ∀ sig, (getOp sig).isSome) :
    ∀ (n : Nat) (sig : Core.CSignature) (attempts : Nat),
      Core.callRetryLoop getOp behavior sig attempts n =
        (.error .retryLimit, attempts + n) := by
  intro n
  induction n with
  | zero => intro sig attempts; simp [Core.callRetryLoop]
  | succ n ih =>
    intro sig attempts
    obtain ⟨f, hf⟩ := Option.isSome_iff_exists.mp (hga sig)
    obtain ⟨sig', hb⟩ := hro f attempts
    rw [show Core.callRetryLoop getOp behavior sig attempts (n + 1) =
        Core.callRetryLoop getOp behavior sig' (attempts + 1) n by
      simp [Core.callRetryLoop, hf, hb]]
    rw [ih sig' (attempts + 1)]
    congr 1
    omega

/-- C10: `OperationContext.call` makes at most `1 + retry_count`
attempts in total (so the retry loop terminates); when the initial
attempt and every retry raise a retry signal (each carrying a signature
that is registered, so the exact-signature lookup succeeds), the call
ends with the fatal `RetryError("Operation retry limit reached")` after
exactly `1 + retry_count` attempts; and the `retry_count` fixed at
context construction defaults to 10. -/
theorem call_retry_bounded :
    (∀ (getOp : Core.CSignature → Option Nat) (lookup0 : Option Nat)
      (behavior : Nat → Nat → Core.CAttempt) (retry_count : Nat),
      (Core.contextCall getOp lookup0 behavior retry_count).2 ≤
        1 + retry_count) ∧
    (∀ (getOp : Core.CSignature → Option Nat) (f0 : Nat)
      (behavior : Nat → Nat → Core.CAttempt) (retry_count : Nat),
      (∀ f t, ∃ sig', behavior f t = .retry sig') →
      (∀ sig, (getOp sig).isSome) →
      Core.contextCall getOp (some f0) behavior retry_count =
        (.error .retryLimit, 1 + retry_count)) ∧
    Core.defaultRetryCount = 10 := by
  refine ⟨?_, ?_, rfl⟩
  · intro getOp lookup0 behavior retry_count
    cases lookup0 with
    | none => simp [Core.contextCall]
    | some f0 =>
      cases hb : behavior f0 0 with
      | ok r => simp [Core.contextCall, hb] <;> omega
      | retry sig =>
        have := callRetryLoop_attempts_le getOp behavior retry_count sig 1
        simp only [Core.contextCall, hb]
        omega
  · intro getOp f0 behavior retry_count hro hga
    obtain ⟨sig, hb⟩ := hro f0 0
    rw [show Core.contextCall getOp (some f0) behavior retry_count =
        Core.callRetryLoop getOp behavior sig 1 retry_count by
      simp [Core.contextCall, hb]]
    rw [callRetryLoop_all_retry getOp behavior hro hga retry_count sig 1]

/-- Witness for `call_retry_bounded`: with `retry_count = 2` and every
implementation retrying with the registered signature `("rows",)`, the
call stops with the retry-limit error after 3 attempts. -/
theorem call_retry_bounded_witness :
    Core.contextCall (fun _ => some 0) (some 0)
        (fun _ _ => Core.CAttempt.retry ⟨["rows"]⟩) 2 =
      (.error .retryLimit, 3) :=
  call_retry_bounded.2.1 (fun _ => some 0) 0
    (fun _ _ => Core.CAttempt.retry ⟨["rows"]⟩) 2
    (fun _ _ => ⟨⟨["rows"]⟩, rfl⟩) (fun _ => rfl)

/-- A single `add`/`connect` call preserves binding uniqueness. -/
theorem applyOp_pairwise (g : Graph.GraphSt) (o : Graph.GOp)
    (h : g.connections.Pairwise Graph.UniqueBinding) :
    (Graph.applyOp g o).connections.Pairwise Graph.UniqueBinding := by
  cases o with
  | add name n =>
    unfold Graph.applyOp Graph.add
    by_cases ha : (g.nodes.any fun p => p.1 == name) = true <;> simp [ha, h]
  | connect source target outlet =>
    by_cases h1 : Graph.hasNode g source = true
    · by_cases h2 : Graph.hasNode g target = true
      · by_cases h3 : Graph.boundOutlet g target outlet = true
        · have hc : Graph.connect g source target outlet =
              .error .outletBound := by simp [Graph.connect, h1, h2, h3]
          simpa [Graph.applyOp, hc] using h
        · have hb : Graph.boundOutlet g target outlet = false :=
            Bool.eq_false_iff.mpr h3
          have h3' := List.any_eq_false.mp hb
          have hc : Graph.connect g source target outlet =
              .ok ⟨g.nodes, g.connections ++ [⟨source, target, outlet⟩]⟩ := by
            simp [Graph.connect, h1, h2, hb]
          simp only [Graph.applyOp, hc]
          rw [List.pairwise_append]
          refine ⟨h, List.pairwise_singleton _ _, ?_⟩
          intro a ha b hb'
          rw [List.mem_singleton] at hb'
          subst hb'
          intro hcon
          obtain ⟨ht, ho⟩ := hcon
          exact h3' a ha (by simp [ht, ho])
      · have hc : Graph.connect g source target outlet =
            .error .unknownNode := by simp [Graph.connect, h1, h2]
        simpa [Graph.applyOp, hc] using h
    · have hc : Graph.connect g source target outlet =
          .error .unknownNode := by simp [Graph.connect, h1]
      simpa [Graph.applyOp, hc] using h

/-- Binding uniqueness over a whole call sequence. -/
theorem applyOps_pairwise (ops : List Graph.GOp) :
    ∀ (g : Graph.GraphSt), g.connections.Pairwise Graph.UniqueBinding →
      (Graph.applyOps g ops).connections.Pairwise Graph.UniqueBinding := by
  induction ops with
  | nil => intro g h; exact h
  | cons o os ih =>
    intro g h
    exact ih (Graph.applyOp g o) (applyOp_pairwise g o h)

/-- C8: for known nodes, `connect` fails fatally exactly when the
`(target, outlet)` pair is already bound and otherwise adds the single
connection `(source, target, outlet)`; consequently every graph
reachable from the empty graph through `add`/`connect` binds each
`(target, outlet)` pair at most once. -/
theorem connect_binds_outlet_once :
    (∀ (g : Graph.GraphSt) (source target : Nat) (outlet : String),
      Graph.hasNode g source = true → Graph.hasNode g target = true →
      (Graph.boundOutlet g target outlet = true →
        Graph.connect g source target outlet = .error .outletBound) ∧
      (Graph.boundOutlet g target outlet = false →
        Graph.connect g source target outlet =
          .ok ⟨g.nodes, g.connections ++ [⟨source, target, outlet⟩]⟩)) ∧
    (∀ (ops : List Graph.GOp),
      (Graph.applyOps ⟨[], []⟩ ops).connections.Pairwise Graph.UniqueBinding) := by
  constructor
  · intro g source target outlet h1 h2
    constructor
    · intro h3; simp [Graph.connect, h1, h2, h3]
    · intro h3; simp [Graph.connect, h1, h2, h3]
  · intro ops
    exact applyOps_pairwise ops ⟨[], []⟩ (List.Pairwise.nil)

/-- Witness for `connect_binds_outlet_once`: on a two-node graph whose
`default` outlet of node 1 is already bound, a second `connect` to the
same `(target, outlet)` fails with the bound-outlet error. -/
theorem connect_binds_outlet_once_witness :
    Graph.connect ⟨[("a", 0), ("b", 1)], [⟨0, 1, "default"⟩]⟩ 0 1 "default" =
      .error .outletBound :=
  (connect_binds_outlet_once.1 ⟨[("a", 0), ("b", 1)], [⟨0, 1, "default"⟩]⟩
    0 1 "default" rfl rfl).1 rfl

/-- `getD` at a valid index is a member. -/
theorem getD_mem_of_lt (l : List Nat) (n d : Nat) (h : n < l.length) :
    l.getD n d ∈ l := by
  induction l generalizing n with
  | nil => simp at h
  | cons x xs ih =>
    cases n with
    | zero => simp
    | succ m =>
      simp only [List.getD_cons_succ]
      exact List.mem_cons_of_mem x (ih m (by simpa using h))

/-- `is_source` characterised by the absence of incoming connections. -/
theorem is_source_iff (x : Nat) (conns : List Graph.Connection) :
    Graph.is_source x conns = true ↔ ∀ c ∈ conns, c.target ≠ x := by
  unfold Graph.is_source
  rw [Bool.not_eq_eq_eq_not, Bool.not_true, List.any_eq_false]
  constructor
  · intro h c hc
    have := h c hc
    simpa using this
  · intro h c hc
    simpa using h c hc

/-- Removing connections cannot destroy sourceness. -/
theorem is_source_of_subset {x : Nat} {conns conns' : List Graph.Connection}
    (hsub : ∀ c ∈ conns', c ∈ conns)
    (h : Graph.is_source x conns = true) :
    Graph.is_source x conns' = true := by
  rw [is_source_iff] at *
  exact fun c hc => h c (hsub c hc)

/-- Erasing a connection with a different target keeps `is_source`
unchanged (for duplicate-free connection lists). -/
theorem is_source_erase_of_ne {x : Nat} {c : Graph.Connection}
    {conns : List Graph.Connection} (hnd : conns.Nodup)
    (htne : c.target ≠ x) :
    Graph.is_source x (conns.erase c) = Graph.is_source x conns := by
  apply Bool.coe_iff_coe.mp
  rw [is_source_iff, is_source_iff]
  constructor
  · intro h c' hc'
    by_cases hcc : c' = c
    · subst hcc; exact htne
    · exact h c' (hnd.mem_erase_iff.mpr ⟨hcc, hc'⟩)
  · intro h c' hc'
    exact h c' (hnd.mem_erase_iff.mp hc').2

/-- Full specification of the inner loop of `sorted_nodes` (removal of a
batch of out-edges of the popped node), relative to the nodes still to be
emitted (`l'` is the output list after the pop, `nodes0` the node set):
it removes exactly the batch from the connections, and keeps the source
set equal to the set of not-yet-emitted nodes with no incoming edge. -/
theorem processOut_spec (nodes0 : List Nat) (l' : List Nat) :
    ∀ (cs conns : List Graph.Connection) (s : List Nat),
      conns.Nodup →
      cs.Nodup →
      (∀ c ∈ cs, c ∈ conns) →
      (∀ c ∈ conns, c.target ∈ nodes0) →
      (∀ c ∈ conns, c.target ∉ l') →
      s.Nodup →
      (∀ x ∈ s, x ∉ l') →
      (∀ x ∈ s, x ∈ nodes0) →
      (∀ x ∈ nodes0, x ∈ s ↔ (x ∉ l' ∧ Graph.is_source x conns = true)) →
      (Graph.processOut cs conns s).1.Nodup ∧
      (∀ a, a ∈ (Graph.processOut cs conns s).1 ↔ (a ∈ conns ∧ a ∉ cs)) ∧
      (Graph.processOut cs conns s).1.length + cs.length = conns.length ∧
      (Graph.processOut cs conns s).2.Nodup ∧
      (∀ x ∈ (Graph.processOut cs conns s).2, x ∉ l') ∧
      (∀ x ∈ (Graph.processOut cs conns s).2, x ∈ nodes0) ∧
      (∀ x ∈ nodes0, x ∈ (Graph.processOut cs conns s).2 ↔
        (x ∉ l' ∧ Graph.is_source x (Graph.processOut cs conns s).1 = true)) ∧
      (Graph.processOut cs conns s).2.length ≤ s.length + cs.length := by
  intro cs
  induction cs with
  | nil =>
    intro conns s hcnd _ _ _ _ hsnd hsl hsn hJ
    refine ⟨hcnd, by simp [Graph.processOut], by simp [Graph.processOut],
      hsnd, hsl, hsn, by simpa [Graph.processOut] using hJ,
      by simp [Graph.processOut]⟩
  | cons c cs ih =>
    intro conns s hcnd hcsnd hcssub htn htl hsnd hsl hsn hJ
    have hcmem : c ∈ conns := hcssub c (by simp)
    have hctl' : c.target ∉ l' := htl c hcmem
    have hctn : c.target ∈ nodes0 := htn c hcmem
    -- the state after the single erase-and-test step
    have hstep : Graph.processOut (c :: cs) conns s =
        Graph.processOut cs (conns.erase c)
          (if Graph.is_source c.target (conns.erase c) ∧ ¬ c.target ∈ s
            then s ++ [c.target] else s) := rfl
    set conns1 := conns.erase c with hconns1
    set s1 := if Graph.is_source c.target conns1 ∧ ¬ c.target ∈ s
      then s ++ [c.target] else s with hs1
    have hc1nd : conns1.Nodup := hcnd.erase c
    have hc1sub : ∀ a ∈ conns1, a ∈ conns := fun a ha => List.erase_subset _ _ ha
    have hc1mem : ∀ a, a ∈ conns1 ↔ (a ≠ c ∧ a ∈ conns) :=
      fun a => hcnd.mem_erase_iff
    have hcs1sub : ∀ a ∈ cs, a ∈ conns1 := by
      intro a ha
      refine (hc1mem a).mpr ⟨?_, hcssub a (by simp [ha])⟩
      intro hac
      subst hac
      exact (List.nodup_cons.mp hcsnd).1 ha
    have hs1nd : s1.Nodup := by
      rw [hs1]
      split
      · rename_i hcond
        rw [List.nodup_append]
        exact ⟨hsnd, List.nodup_singleton _, by
          intro x hx hx2
          rw [List.mem_singleton] at hx2
          subst hx2
          exact hcond.2 hx⟩
      · exact hsnd
    have hs1mem : ∀ x, x ∈ s1 ↔ (x ∈ s ∨
        (x = c.target ∧ Graph.is_source c.target conns1 = true ∧ c.target ∉ s)) := by
      intro x
      rw [hs1]
      split
      · rename_i hcond
        simp only [List.mem_append, List.mem_singleton]
        constructor
        · rintro (hx | hx)
          · exact Or.inl hx
          · exact Or.inr ⟨hx, hcond.1, hcond.2⟩
        · rintro (hx | ⟨hx, _, _⟩)
          · exact Or.inl hx
          · exact Or.inr hx
      · rename_i hcond
        constructor
        · intro hx; exact Or.inl hx
        · rintro (hx | ⟨hx, h1, h2⟩)
          · exact hx
          · exact absurd ⟨h1, h2⟩ hcond
    have hs1l : ∀ x ∈ s1, x ∉ l' := by
      intro x hx
      rcases (hs1mem x).mp hx with h | ⟨h, _, _⟩
      · exact hsl x h
      · subst h; exact hctl'
    have hs1n : ∀ x ∈ s1, x ∈ nodes0 := by
      intro x hx
      rcases (hs1mem x).mp hx with h | ⟨h, _, _⟩
      · exact hsn x h
      · subst h; exact hctn
    have hJ1 : ∀ x ∈ nodes0, x ∈ s1 ↔
        (x ∉ l' ∧ Graph.is_source x conns1 = true) := by
      intro x hxn
      by_cases hxt : x = c.target
      · subst hxt
        rw [hs1mem]
        constructor
        · rintro (hx | ⟨_, h1, _⟩)
          · exact ⟨hsl _ hx, is_source_of_subset hc1sub (((hJ _ hxn).mp hx).2)⟩
          · exact ⟨hctl', h1⟩
        · rintro ⟨hxl, hsrc⟩
          by_cases hxs : c.target ∈ s
          · exact Or.inl hxs
          · exact Or.inr ⟨rfl, hsrc, hxs⟩
      · rw [hs1mem]
        have heq : Graph.is_source x conns1 = Graph.is_source x conns :=
          is_source_erase_of_ne hcnd (fun h => hxt h.symm)
        constructor
        · rintro (hx | ⟨hx, _, _⟩)
          · rw [heq]
            exact (hJ x hxn).mp hx
          · exact absurd hx hxt
        · rintro ⟨hxl, hsrc⟩
          rw [heq] at hsrc
          exact Or.inl ((hJ x hxn).mpr ⟨hxl, hsrc⟩)
    have hs1len : s1.length ≤ s.length + 1 := by
      rw [hs1]
      split
      · simp
      · simp
    obtain ⟨r1, r2, r3, r4, r5, r6, r7, r8⟩ :=
      ih conns1 s1 hc1nd (List.nodup_cons.mp hcsnd).2 hcs1sub
        (fun a ha => htn a (hc1sub a ha)) (fun a ha => htl a (hc1sub a ha))
        hs1nd hs1l hs1n hJ1
    rw [hstep]
    refine ⟨r1, ?_, ?_, r4, r5, r6, r7, ?_⟩
    · intro a
      rw [r2 a, hc1mem a]
      constructor
      · rintro ⟨⟨hac, hain⟩, hacs⟩
        refine ⟨hain, ?_⟩
        intro hmem
        rcases List.mem_cons.mp hmem with h | h
        · exact hac h
        · exact hacs h
      · rintro ⟨hain, hacs⟩
        refine ⟨⟨?_, hain⟩, ?_⟩
        · intro h; exact hacs (by simp [h])
        · intro h; exact hacs (by simp [h])
    · have herase : conns1.length + 1 = conns.length :=
        List.length_erase_add_one hcmem
      simp only [List.length_cons]
      omega
    · have := hs1len
      simp only [List.length_cons]
      omega

/-- One iteration of the `while source_nodes` loop preserves the Kahn
invariant and decreases the measure `2·|connections| + |sources|`. -/
theorem kahnStep (nodes0 : List Nat) (conns0 : List Graph.Connection)
    (WFG : ∀ c ∈ conns0, c.source ∈ nodes0 ∧ c.target ∈ nodes0)
    (s : List Nat) (conns : List Graph.Connection) (l : List Nat)
    (inv : Graph.KahnInv nodes0 conns0 s conns l) (n : Nat) (hn : n ∈ s) :
    Graph.KahnInv nodes0 conns0
        (Graph.processOut (Graph.source_connections n conns) conns
          (s.erase n)).2
        (Graph.processOut (Graph.source_connections n conns) conns
          (s.erase n)).1
        (l ++ [n]) ∧
      2 * (Graph.processOut (Graph.source_connections n conns) conns
            (s.erase n)).1.length +
          (Graph.processOut (Graph.source_connections n conns) conns
            (s.erase n)).2.length + 1 ≤
        2 * conns.length + s.length := by
  have hnl : n ∉ l := inv.s_l n hn
  have hnn0 : n ∈ nodes0 := inv.s_nodes n hn
  have hsrc_n : Graph.is_source n conns = true := ((inv.exact_s n hnn0).mp hn).2
  have htgt_ne_n : ∀ c ∈ conns, c.target ≠ n := (is_source_iff n conns).mp hsrc_n
  have htn0 : ∀ c ∈ conns, c.target ∈ nodes0 :=
    fun c hc => (WFG c (inv.conns_sub c hc)).2
  have htl' : ∀ c ∈ conns, c.target ∉ l ++ [n] := by
    intro c hc hmem
    rcases List.mem_append.mp hmem with h | h
    · exact inv.rem_tgt c hc h
    · rw [List.mem_singleton] at h
      exact htgt_ne_n c hc h
  have hcsnd : (Graph.source_connections n conns).Nodup := inv.conns_nd.filter _
  have hcssub : ∀ c ∈ Graph.source_connections n conns, c ∈ conns :=
    fun c hc => (List.mem_filter.mp hc).1
  have hcs_iff : ∀ c, c ∈ Graph.source_connections n conns ↔
      (c ∈ conns ∧ c.source = n) := by
    intro c
    rw [Graph.source_connections, List.mem_filter]
    simp
  have hs'mem : ∀ x, x ∈ s.erase n ↔ (x ≠ n ∧ x ∈ s) :=
    fun x => inv.s_nd.mem_erase_iff
  have hs'l' : ∀ x ∈ s.erase n, x ∉ l ++ [n] := by
    intro x hx hmem
    obtain ⟨hxn, hxs⟩ := (hs'mem x).mp hx
    rcases List.mem_append.mp hmem with h | h
    · exact inv.s_l x hxs h
    · rw [List.mem_singleton] at h
      exact hxn h
  have hs'n0 : ∀ x ∈ s.erase n, x ∈ nodes0 :=
    fun x hx => inv.s_nodes x ((hs'mem x).mp hx).2
  have hJ' : ∀ x ∈ nodes0, x ∈ s.erase n ↔
      (x ∉ l ++ [n] ∧ Graph.is_source x conns = true) := by
    intro x hxn
    rw [hs'mem]
    constructor
    · rintro ⟨hxne, hxs⟩
      obtain ⟨hxl, hsrc⟩ := (inv.exact_s x hxn).mp hxs
      refine ⟨?_, hsrc⟩
      intro hmem
      rcases List.mem_append.mp hmem with h | h
      · exact hxl h
      · rw [List.mem_singleton] at h
        exact hxne h
    · rintro ⟨hxl', hsrc⟩
      have hxl : x ∉ l := fun h => hxl' (List.mem_append.mpr (Or.inl h))
      have hxne : x ≠ n := by
        intro h
        exact hxl' (List.mem_append.mpr (Or.inr (by simp [h])))
      exact ⟨hxne, (inv.exact_s x hxn).mpr ⟨hxl, hsrc⟩⟩
  obtain ⟨r1, r2, r3, r4, r5, r6, r7, r8⟩ :=
    processOut_spec nodes0 (l ++ [n]) (Graph.source_connections n conns) conns
      (s.erase n) inv.conns_nd hcsnd hcssub htn0 htl' (inv.s_nd.erase n)
      hs'l' hs'n0 hJ'
  have hl'nd : (l ++ [n]).Nodup := by
    rw [List.nodup_append]
    refine ⟨inv.l_nd, List.nodup_singleton n, ?_⟩
    intro a ha hb
    rw [List.mem_singleton] at hb
    subst hb
    exact hnl ha
  constructor
  · refine ⟨r1, fun c hc => inv.conns_sub c ((r2 c).mp hc).1, r4, hl'nd,
      r5, r6, ?_, r7, ?_, ?_, ?_⟩
    · intro x hx
      rcases List.mem_append.mp hx with h | h
      · exact inv.l_nodes x h
      · rw [List.mem_singleton] at h
        subst h
        exact hnn0
    · intro c hc hmem
      obtain ⟨hcin, hccs⟩ := (r2 c).mp hc
      rcases List.mem_append.mp hmem with h | h
      · exact inv.rem_src c hcin h
      · rw [List.mem_singleton] at h
        exact hccs ((hcs_iff c).mpr ⟨hcin, h⟩)
    · intro c hc hmem
      obtain ⟨hcin, _⟩ := (r2 c).mp hc
      exact htl' c hcin hmem
    · intro c hc0 hcres
      by_cases hcin : c ∈ conns
      · have hccs : c ∈ Graph.source_connections n conns := by
          by_contra hno
          exact hcres ((r2 c).mpr ⟨hcin, hno⟩)
        have hcsrc : c.source = n := ((hcs_iff c).mp hccs).2
        refine ⟨List.mem_append.mpr (Or.inr (by simp [hcsrc])), ?_⟩
        intro htmem
        exact absurd htmem (htl' c hcin)
      · obtain ⟨hslmem, hord⟩ := inv.topo c hc0 hcin
        refine ⟨List.mem_append.mpr (Or.inl hslmem), ?_⟩
        intro htmem
        rw [List.indexOf_append_of_mem hslmem]
        rcases List.mem_append.mp htmem with h | h
        · rw [List.indexOf_append_of_mem h]
          exact hord h
        · rw [List.mem_singleton] at h
          subst h
          rw [List.indexOf_append_of_not_mem hnl]
          have : l.indexOf c.source < l.length := List.indexOf_lt_length.mpr hslmem
          omega
  · have herase : (s.erase n).length + 1 = s.length := by
      have := List.length_erase_add_one hn
      omega
    omega

/-- A rank that strictly increases along a relation also strictly
increases along its transitive closure. -/
theorem rank_lt_of_transGen {R : Nat → Nat → Prop} {rank : Nat → Nat}
    (h : ∀ a b, R a b → rank a < rank b) :
    ∀ a b, Relation.TransGen R a b → rank a < rank b := by
  intro a b htg
  induction htg with
  | single h' => exact h _ _ h'
  | tail _ h' ih => exact lt_trans ih (h _ _ h')

/-- A non-empty connection set in which every edge's source has an
incoming edge contains a reachability cycle (backward walk plus
pigeonhole on the finitely many edges). -/
theorem cycle_of_all_sources_have_incoming
    (conns : List Graph.Connection) (hne : conns ≠ [])
    (hin : ∀ c ∈ conns, ∃ c' ∈ conns, c'.target = c.source) :
    Graph.HasCycle conns := by
  obtain ⟨e0, he0⟩ : ∃ e, e ∈ conns := by
    cases conns with
    | nil => exact absurd rfl hne
    | cons c cs => exact ⟨c, by simp⟩
  set stepf : Graph.Connection → Graph.Connection := fun c =>
    (conns.find? fun c' => c'.target == c.source).getD c with hstepf
  have hstep : ∀ c ∈ conns, stepf c ∈ conns ∧ (stepf c).target = c.source := by
    intro c hc
    obtain ⟨c', hc', hct⟩ := hin c hc
    have hsome : (conns.find? fun x => x.target == c.source).isSome := by
      rw [List.find?_isSome]
      exact ⟨c', hc', by simp [hct]⟩
    obtain ⟨d, hd⟩ := Option.isSome_iff_exists.mp hsome
    have hdm : d ∈ conns := List.mem_of_find?_eq_some hd
    have hdp := List.find?_some hd
    rw [hstepf]
    simp only [hd, Option.getD_some]
    exact ⟨hdm, by simpa using hdp⟩
  have hE : ∀ i, stepf^[i] e0 ∈ conns := by
    intro i
    induction i with
    | zero => simpa using he0
    | succ k ih =>
      rw [Function.iterate_succ_apply']
      exact (hstep _ ih).1
  have hedge : ∀ i, Graph.edgeRel conns ((stepf^[i + 1] e0).source)
      ((stepf^[i] e0).source) := by
    intro i
    refine ⟨stepf^[i + 1] e0, hE (i + 1), rfl, ?_⟩
    rw [Function.iterate_succ_apply']
    exact (hstep _ (hE i)).2
  have hchain : ∀ d i, Relation.TransGen (Graph.edgeRel conns)
      ((stepf^[i + d + 1] e0).source) ((stepf^[i] e0).source) := by
    intro d
    induction d with
    | zero => intro i; exact Relation.TransGen.single (hedge i)
    | succ k ih =>
      intro i
      exact Relation.TransGen.head (hedge (i + k + 1)) (ih i)
  have key : ∀ a b : Nat, a < b → stepf^[a] e0 = stepf^[b] e0 →
      Graph.HasCycle conns := by
    intro a b hab heq
    refine ⟨(stepf^[a] e0).source, ?_⟩
    have hj : a + (b - a - 1) + 1 = b := by omega
    have hc := hchain (b - a - 1) a
    rw [hj, ← heq] at hc
    exact hc
  have hpair : ∃ i ∈ Finset.range (conns.length + 1),
      ∃ j ∈ Finset.range (conns.length + 1),
        i ≠ j ∧ stepf^[i] e0 = stepf^[j] e0 := by
    apply Finset.exists_ne_map_eq_of_card_lt_of_maps_to
    · rw [Finset.card_range]
      exact Nat.lt_succ_of_le conns.toFinset_card_le
    · intro i _
      rw [List.mem_toFinset]
      exact hE i
  obtain ⟨i, _, j, _, hij, heq⟩ := hpair
  rcases lt_or_gt_of_ne hij with hlt | hgt
  · exact key i j hlt heq
  · exact key j i hgt heq.symm

/-- Soundness and completeness of the `sorted_nodes` loop: with
sufficient fuel and the invariant, it returns either a topological order
of all nodes, or the cycle error — and then the graph really has a
cycle. -/
theorem kahnLoop_sound (pick : List Nat → Nat) (nodes0 : List Nat)
    (conns0 : List Graph.Connection) (hn0 : nodes0.Nodup)
    (WFG : ∀ c ∈ conns0, c.source ∈ nodes0 ∧ c.target ∈ nodes0) :
    ∀ (fuel : Nat) (s : List Nat) (conns : List Graph.Connection)
      (l : List Nat),
      Graph.KahnInv nodes0 conns0 s conns l →
      2 * conns.length + s.length < fuel →
      (∃ lfin, Graph.kahnLoop pick s conns l fuel = .ok lfin ∧
        lfin.Perm nodes0 ∧
        (∀ c ∈ conns0, lfin.indexOf c.source < lfin.indexOf c.target)) ∨
      (Graph.kahnLoop pick s conns l fuel = .error .cycle ∧
        Graph.HasCycle conns0) := by
  intro fuel
  induction fuel with
  | zero => intro s conns l _ hfuel; omega
  | succ f ih =>
    intro s conns l inv hfuel
    cases s with
    | nil =>
      by_cases hce : conns = []
      · left
        have hcov : ∀ a ∈ nodes0, a ∈ l := by
          intro a ha
          by_contra hal
          have hiff := inv.exact_s a ha
          have hsrc : Graph.is_source a conns = true := by
            subst hce
            rfl
          have : a ∈ ([] : List Nat) := hiff.mpr ⟨hal, hsrc⟩
          simp at this
        refine ⟨l, by subst hce; rfl, ?_, ?_⟩
        · rw [List.perm_ext_iff_of_nodup inv.l_nd hn0]
          intro a
          exact ⟨fun h => inv.l_nodes a h, fun h => hcov a h⟩
        · intro c hc0
          obtain ⟨_, hord⟩ := inv.topo c hc0 (by subst hce; simp)
          exact hord (hcov c.target (WFG c hc0).2)
      · right
        constructor
        · have : conns.isEmpty = false := by
            cases conns with
            | nil => exact absurd rfl hce
            | cons a as => rfl
          simp [Graph.kahnLoop, this]
        · have hin : ∀ c ∈ conns, ∃ c' ∈ conns, c'.target = c.source := by
            intro c hc
            have hsn0 : c.source ∈ nodes0 := (WFG c (inv.conns_sub c hc)).1
            have hsl : c.source ∉ l := inv.rem_src c hc
            have hnotsrc : Graph.is_source c.source conns ≠ true := by
              intro h
              have : c.source ∈ ([] : List Nat) :=
                (inv.exact_s c.source hsn0).mpr ⟨hsl, h⟩
              simp at this
            have hnot : ¬ ∀ c' ∈ conns, c'.target ≠ c.source :=
              fun h => hnotsrc ((is_source_iff _ _).mpr h)
            push_neg at hnot
            obtain ⟨c', hc', ht⟩ := hnot
            exact ⟨c', hc', ht⟩
          obtain ⟨n, hn⟩ := cycle_of_all_sources_have_incoming conns hce hin
          refine ⟨n, hn.mono ?_⟩
          rintro a b ⟨c, hc, h1, h2⟩
          exact ⟨c, inv.conns_sub c hc, h1, h2⟩
    | cons x xs =>
      have hlen : 0 < (x :: xs).length := by simp
      have hmod : pick (x :: xs) % (x :: xs).length < (x :: xs).length :=
        Nat.mod_lt _ hlen
      have hnmem : (x :: xs).getD (pick (x :: xs) % (x :: xs).length) 0
          ∈ x :: xs := getD_mem_of_lt _ _ _ hmod
      obtain ⟨inv', hdec⟩ :=
        kahnStep nodes0 conns0 WFG (x :: xs) conns l inv _ hnmem
      exact ih _ _ _ inv' (by omega)

/-- C5: for every well-formed acyclic graph, `sorted_nodes()` returns a
list containing each node exactly once (a permutation of the node set)
in which, for every connection, the source node appears before the
target node; for every graph containing a cycle it raises the fatal
cycle error instead — for every tie-breaking order of `set.pop()`. -/
theorem sorted_nodes_topological :
    ∀ (pick : List Nat → Nat) (nodes0 : List Nat)
      (conns0 : List Graph.Connection),
      nodes0.Nodup → conns0.Nodup →
      (∀ c ∈ conns0, c.source ∈ nodes0 ∧ c.target ∈ nodes0) →
      (¬ Graph.HasCycle conns0 →
        ∃ lfin, Graph.sorted_nodes pick nodes0 conns0 = .ok lfin ∧
          lfin.Perm nodes0 ∧
          (∀ c ∈ conns0, lfin.indexOf c.source < lfin.indexOf c.target)) ∧
      (Graph.HasCycle conns0 →
        Graph.sorted_nodes pick nodes0 conns0 = .error .cycle) := by
  intro pick nodes0 conns0 hn0 hc0 WFG
  have inv0 : Graph.KahnInv nodes0 conns0
      (nodes0.filter fun n => Graph.is_source n conns0) conns0 [] := by
    refine ⟨hc0, fun c hc => hc, hn0.filter _, List.nodup_nil, ?_, ?_, ?_,
      ?_, ?_, ?_, ?_⟩
    · intro x _ h; simp at h
    · intro x hx; exact (List.mem_filter.mp hx).1
    · intro x hx; simp at hx
    · intro x hxn
      rw [List.mem_filter]
      simp [hxn]
    · intro c _ h; simp at h
    · intro c _ h; simp at h
    · intro c hc hnc; exact absurd hc hnc
  have hfuel : 2 * conns0.length +
      (nodes0.filter fun n => Graph.is_source n conns0).length <
      2 * conns0.length + nodes0.length + 1 := by
    have := List.length_filter_le (fun n => Graph.is_source n conns0) nodes0
    omega
  have hsound := kahnLoop_sound pick nodes0 conns0 hn0 WFG
    (2 * conns0.length + nodes0.length + 1) _ conns0 [] inv0 hfuel
  constructor
  · intro hnc
    rcases hsound with h | ⟨_, hcy⟩
    · exact h
    · exact absurd hcy hnc
  · intro hcy
    rcases hsound with ⟨lfin, _, _, htopo⟩ | ⟨herr, _⟩
    · exfalso
      obtain ⟨n, htg⟩ := hcy
      have hrank : ∀ a b, Graph.edgeRel conns0 a b →
          lfin.indexOf a < lfin.indexOf b := by
        rintro a b ⟨c, hc, h1, h2⟩
        subst h1
        subst h2
        exact htopo c hc
      exact lt_irrefl _ (rank_lt_of_transGen hrank n n htg)
    · exact herr

/-- Witness for `sorted_nodes_topological`: the spec's acyclic example
A→B, B→C, A→D, B→D yields a topological permutation of the four nodes,
and the 2-node cycle A→B→A yields the fatal cycle error. -/
theorem sorted_nodes_topological_witness :
    (∃ lfin, Graph.sorted_nodes (fun _ => 0) [0, 1, 2, 3]
        [⟨0, 1, "a"⟩, ⟨1, 2, "b"⟩, ⟨0, 3, "c"⟩, ⟨1, 3, "d"⟩] = .ok lfin ∧
      lfin.Perm [0, 1, 2, 3] ∧
      (∀ c ∈ ([⟨0, 1, "a"⟩, ⟨1, 2, "b"⟩, ⟨0, 3, "c"⟩, ⟨1, 3, "d"⟩] :
          List Graph.Connection),
        lfin.indexOf c.source < lfin.indexOf c.target)) ∧
    Graph.sorted_nodes (fun _ => 0) [0, 1] [⟨0, 1, "x"⟩, ⟨1, 0, "y"⟩] =
      .error .cycle := by
  constructor
  · apply (sorted_nodes_topological (fun _ => 0) [0, 1, 2, 3]
      [⟨0, 1, "a"⟩, ⟨1, 2, "b"⟩, ⟨0, 3, "c"⟩, ⟨1, 3, "d"⟩]
      (by decide) (by decide) (by decide)).1
    rintro ⟨n, htg⟩
    have hrank : ∀ a b,
        Graph.edgeRel [⟨0, 1, "a"⟩, ⟨1, 2, "b"⟩, ⟨0, 3, "c"⟩, ⟨1, 3, "d"⟩] a b →
        (if a = 0 then 0 else if a = 1 then 1 else 2) <
          (if b = 0 then 0 else if b = 1 then 1 else 2) := by
      rintro a b ⟨c, hc, h1, h2⟩
      subst h1
      subst h2
      simp only [List.mem_cons, List.mem_singleton] at hc
      rcases hc with rfl | rfl | rfl | rfl | hc
      · decide
      · decide
      · decide
      · decide
      · simp at hc
    exact absurd
      (@rank_lt_of_transGen _
        (fun a => if a = 0 then 0 else if a = 1 then 1 else 2)
        hrank n n htg) (lt_irrefl _)
  · apply (sorted_nodes_topological (fun _ => 0) [0, 1]
      [⟨0, 1, "x"⟩, ⟨1, 0, "y"⟩] (by decide) (by decide) (by decide)).2
    exact ⟨0, Relation.TransGen.head ⟨⟨0, 1, "x"⟩, by simp, rfl, rfl⟩
      (Relation.TransGen.single ⟨⟨1, 0, "y"⟩, by simp, rfl, rfl⟩)⟩

/-- Projection distributes over log append. -/
theorem projOf_append (n : Nat) (l1 l2 : List (Engine.Event V)) :
    Engine.projOf n (l1 ++ l2) =
      Engine.projOf n l1 ++ Engine.projOf n l2 := by
  simp [Engine.projOf]

/-- Counting events that can only belong to node `n` may be done on the
projection. -/
theorem countP_projOf (n : Nat) (p : Engine.Event V → Bool)
    (hp : ∀ e, p e = true → Engine.eventNode e = n) :
    ∀ log : List (Engine.Event V),
      (Engine.projOf n log).countP p = log.countP p := by
  intro log
  induction log with
  | nil => rfl
  | cons e es ih =>
    unfold Engine.projOf at *
    rw [List.filter_cons]
    by_cases he : (Engine.eventNode e == n) = true
    · rw [if_pos he, List.countP_cons, List.countP_cons, ih]
    · rw [if_neg he]
      have hpe : p e = false := by
        by_contra hc
        rw [hp e (eq_true_of_ne_false hc)] at he
        simp at he
      rw [List.countP_cons, hpe, ih]
      simp

/-- Retain events of `n` live in `n`'s projection. -/
theorem retainCountL_proj (n : Nat) (log : List (Engine.Event V)) :
    Engine.retainCountL (Engine.projOf n log) n =
      Engine.retainCountL log n := by
  apply countP_projOf
  intro e he
  cases e with
  | retainE m v => simpa [Engine.eventNode] using he
  | evalE m v => simp at he
  | readE m v => simp at he

/-- Read events of `n` live in `n`'s projection. -/
theorem readCountL_proj (n : Nat) (log : List (Engine.Event V)) :
    Engine.readCountL (Engine.projOf n log) n =
      Engine.readCountL log n := by
  apply countP_projOf
  intro e he
  cases e with
  | readE m v => simpa [Engine.eventNode] using he
  | evalE m v => simp at he
  | retainE m v => simp at he

/-- `countP` over a replicated list. -/
theorem countP_replicate (p : α → Bool) (k : Nat) (a : α) :
    (List.replicate k a).countP p = if p a then k else 0 := by
  induction k with
  | zero => simp
  | succ m ih =>
    rw [List.replicate_succ, List.countP_cons, ih]
    by_cases h : p a = true <;> simp [h]

/-- Appending events of other nodes leaves a projection unchanged. -/
theorem projOf_append_other (n : Nat) (log suffix : List (Engine.Event V))
    (h : ∀ e ∈ suffix, Engine.eventNode e ≠ n) :
    Engine.projOf n (log ++ suffix) = Engine.projOf n log := by
  rw [projOf_append]
  have : Engine.projOf n suffix = [] := by
    rw [Engine.projOf, List.filter_eq_nil]
    intro e he
    simp [h e he]
  rw [this, List.append_nil]

/-- Read counts add over appended logs. -/
theorem readCountL_append (l1 l2 : List (Engine.Event V)) (m : Nat) :
    Engine.readCountL (l1 ++ l2) m =
      Engine.readCountL l1 m + Engine.readCountL l2 m := by
  unfold Engine.readCountL
  exact List.countP_append _ _ _

/-- Retain counts add over appended logs. -/
theorem retainCountL_append (l1 l2 : List (Engine.Event V)) (m : Nat) :
    Engine.retainCountL (l1 ++ l2) m =
      Engine.retainCountL l1 m + Engine.retainCountL l2 m := by
  unfold Engine.retainCountL
  exact List.countP_append _ _ _

/-- Appending events whose node is all `n` extends `n`'s projection. -/
theorem projOf_append_self (n : Nat) (log suffix : List (Engine.Event V))
    (h : ∀ e ∈ suffix, Engine.eventNode e = n) :
    Engine.projOf n (log ++ suffix) = Engine.projOf n log ++ suffix := by
  rw [projOf_append]
  congr 1
  rw [Engine.projOf, List.filter_eq_self]
  intro e he
  simp [h e he]

/-- Read count of a single read event. -/
theorem readCountL_single (n : Nat) (v : V) (m : Nat) :
    Engine.readCountL [Engine.Event.readE n v] m = if n = m then 1 else 0 := by
  by_cases h : n = m <;> simp [Engine.readCountL, List.countP_cons, h]

/-- Read count of a retain-then-read pair. -/
theorem readCountL_pair (n : Nat) (v w : V) (m : Nat) :
    Engine.readCountL [Engine.Event.retainE n v, Engine.Event.readE n w] m =
      if n = m then 1 else 0 := by
  by_cases h : n = m <;> simp [Engine.readCountL, List.countP_cons, h]

/-- A non-retaining read of node `n` (the two `else` paths of the
retention check) preserves the invariant, given that appending the read
to `n`'s history is again a legal history. -/
theorem readOutlet_noretain_inv (E : Engine.EngCfg V) (cons : Nat → Nat)
    (doneNodes : List Nat) (st : Engine.RunState V)
    (inv : Engine.EngInv E cons doneNodes st) (n : Nat) (hn : n ∈ doneNodes)
    (hnew : Engine.HistOK E (cons n) n
      (Engine.projOf n st.log ++ [.readE n (st.results n)]) (st.results n)) :
    Engine.EngInv E cons doneNodes
      ⟨st.results, n :: st.consumed,
        st.log ++ [.readE n (st.results n)]⟩ := by
  refine ⟨?_, ?_, ?_⟩
  · intro m
    by_cases hm : m = n
    · subst hm
      rw [projOf_append_self m st.log _ (by intro e he; rw [List.mem_singleton] at he; subst he; rfl)]
      exact hnew
    · rw [projOf_append_other m st.log _ (by
        intro e he
        rw [List.mem_singleton] at he
        subst he
        simp only [Engine.eventNode]
        exact fun hc => hm hc.symm)]
      exact inv.hist m
  · intro m
    rw [readCountL_append, readCountL_single]
    by_cases hm : m = n
    · subst hm
      rw [if_pos rfl]
      simp only [List.mem_cons, true_or, true_iff]
      omega
    · rw [if_neg (fun hc => hm hc.symm), Nat.add_zero]
      simp only [List.mem_cons]
      constructor
      · rintro (h | h)
        · exact absurd h hm
        · exact (inv.cons_read m).mp h
      · intro h
        exact Or.inr ((inv.cons_read m).mpr h)
  · intro m
    by_cases hm : m = n
    · subst hm
      rw [projOf_append_self m st.log _ (by intro e he; rw [List.mem_singleton] at he; subst he; rfl)]
      simp [hn]
    · rw [projOf_append_other m st.log _ (by
        intro e he
        rw [List.mem_singleton] at he
        subst he
        simp only [Engine.eventNode]
        exact fun hc => hm hc.symm)]
      exact inv.done_iff m

/-- One outlet read preserves the invariant and adds exactly one read
event, of the outlet's producing node. -/
theorem readOutlet_spec (E : Engine.EngCfg V) (cons : Nat → Nat)
    (doneNodes : List Nat) (st : Engine.RunState V)
    (inv : Engine.EngInv E cons doneNodes st) (n : Nat) (hn : n ∈ doneNodes) :
    Engine.EngInv E cons doneNodes (Engine.readOutlet E cons st n).1 ∧
      (∀ m, Engine.readCountL (Engine.readOutlet E cons st n).1.log m =
        Engine.readCountL st.log m + (if n = m then 1 else 0)) := by
  have hh := inv.hist n
  have hne : Engine.projOf n st.log ≠ [] := (inv.done_iff n).mp hn
  generalize hP : Engine.projOf n st.log = P at hh hne
  generalize hR : st.results n = R at hh
  cases hh with
  | empty => exact absurd rfl hne
  | evald v =>
    have hrc : Engine.readCountL st.log n = 0 := by
      rw [← readCountL_proj, hP]
      simp [Engine.readCountL, List.countP_cons]
    have hnc : ¬ n ∈ st.consumed := by
      rw [inv.cons_read n]
      omega
    by_cases hg : E.isConsumable R = true ∧ 1 < cons n
    · -- the retaining first read
      have hstep : Engine.readOutlet E cons st n =
          (⟨Engine.updateRes st.results n (E.retained R), n :: st.consumed,
            st.log ++ [.retainE n R, .readE n (E.retained R)]⟩,
            E.retained R) := by
        simp [Engine.readOutlet, hR, hg, hnc]
      rw [hstep]
      dsimp only
      refine ⟨⟨?_, ?_, ?_⟩, ?_⟩
      · intro m
        by_cases hm : m = n
        · subst hm
          rw [projOf_append_self m st.log _ (by
            intro e he
            rcases List.mem_cons.mp he with h | h
            · subst h; rfl
            · rw [List.mem_singleton] at h; subst h; rfl), hP]
          have hshape := @Engine.HistOK.retained V E (cons m) m
            R 1 (by omega) hg.1 hg.2
          simpa [Engine.updateRes] using hshape
        · rw [projOf_append_other m st.log _ (by
            intro e he
            rcases List.mem_cons.mp he with h | h
            · subst h; simp only [Engine.eventNode]; exact fun hc => hm hc.symm
            · rw [List.mem_singleton] at h; subst h
              simp only [Engine.eventNode]; exact fun hc => hm hc.symm)]
          simpa [Engine.updateRes, hm] using inv.hist m
      · intro m
        rw [readCountL_append, readCountL_pair]
        by_cases hm : m = n
        · subst hm
          rw [if_pos rfl]
          simp only [List.mem_cons, true_or, true_iff]
          omega
        · rw [if_neg (fun hc => hm hc.symm), Nat.add_zero]
          simp only [List.mem_cons]
          constructor
          · rintro (h | h)
            · exact absurd h hm
            · exact (inv.cons_read m).mp h
          · intro h
            exact Or.inr ((inv.cons_read m).mpr h)
      · intro m
        by_cases hm : m = n
        · subst hm
          rw [projOf_append_self m st.log _ (by
            intro e he
            rcases List.mem_cons.mp he with h | h
            · subst h; rfl
            · rw [List.mem_singleton] at h; subst h; rfl)]
          simp [hn]
        · rw [projOf_append_other m st.log _ (by
            intro e he
            rcases List.mem_cons.mp he with h | h
            · subst h; simp only [Engine.eventNode]; exact fun hc => hm hc.symm
            · rw [List.mem_singleton] at h; subst h
              simp only [Engine.eventNode]; exact fun hc => hm hc.symm)]
          exact inv.done_iff m
      · intro m
        rw [readCountL_append, readCountL_pair]
    · -- non-consumable or single-consumer: plain first read
      have hstep : Engine.readOutlet E cons st n =
          (⟨st.results, n :: st.consumed,
            st.log ++ [.readE n (st.results n)]⟩, st.results n) := by
        simp [Engine.readOutlet, hR, hg]
      rw [hstep]
      refine ⟨readOutlet_noretain_inv E cons doneNodes st inv n hn ?_, ?_⟩
      · rw [hP, hR]
        have hshape := @Engine.HistOK.plain V E (cons n) n
          R 1 (by omega) hg
        simpa using hshape
      · intro m
        rw [readCountL_append, readCountL_single]
  | plain v k hk hno =>
    have hstep : Engine.readOutlet E cons st n =
        (⟨st.results, n :: st.consumed,
          st.log ++ [.readE n (st.results n)]⟩, st.results n) := by
      simp [Engine.readOutlet, hR, hno]
    rw [hstep]
    refine ⟨readOutlet_noretain_inv E cons doneNodes st inv n hn ?_, ?_⟩
    · rw [hP, hR]
      have hshape := @Engine.HistOK.plain V E (cons n) n
        R (k + 1) (by omega) hno
      rw [List.replicate_succ'] at hshape
      simpa using hshape
    · intro m
      rw [readCountL_append, readCountL_single]
  | retained v k hk hc hcnt =>
    have hrc : 1 ≤ Engine.readCountL st.log n := by
      rw [← readCountL_proj, hP]
      simp [Engine.readCountL, List.countP_cons, countP_replicate]
      omega
    have hmem : n ∈ st.consumed := (inv.cons_read n).mpr hrc
    have hstep : Engine.readOutlet E cons st n =
        (⟨st.results, n :: st.consumed,
          st.log ++ [.readE n (st.results n)]⟩, st.results n) := by
      by_cases hg : E.isConsumable (E.retained v) = true ∧ 1 < cons n
      · simp [Engine.readOutlet, hR, hg, hmem]
      · simp [Engine.readOutlet, hR, hg]
    rw [hstep]
    refine ⟨readOutlet_noretain_inv E cons doneNodes st inv n hn ?_, ?_⟩
    · rw [hP, hR]
      have hshape := @Engine.HistOK.retained V E (cons n) n
        v (k + 1) (by omega) hc hcnt
      rw [List.replicate_succ'] at hshape
      simpa using hshape
    · intro m
      rw [readCountL_append, readCountL_single]

/-- Gathering all of a step's operands preserves the invariant and adds
one read per outlet reference. -/
theorem readOutlets_spec (E : Engine.EngCfg V) (cons : Nat → Nat)
    (doneNodes : List Nat) :
    ∀ (outs : List Nat) (st : Engine.RunState V),
      Engine.EngInv E cons doneNodes st →
      (∀ o ∈ outs, o ∈ doneNodes) →
      Engine.EngInv E cons doneNodes
        (Engine.readOutlets E cons st outs).1 ∧
      (∀ m, Engine.readCountL (Engine.readOutlets E cons st outs).1.log m =
        Engine.readCountL st.log m + outs.count m) := by
  intro outs
  induction outs with
  | nil =>
    intro st inv _
    exact ⟨inv, by simp [Engine.readOutlets]⟩
  | cons o os ih =>
    intro st inv houts
    obtain ⟨inv1, hc1⟩ :=
      readOutlet_spec E cons doneNodes st inv o (houts o (by simp))
    obtain ⟨inv2, hc2⟩ := ih (Engine.readOutlet E cons st o).1 inv1
      (fun x hx => houts x (by simp [hx]))
    have hfold : (Engine.readOutlets E cons st (o :: os)).1 =
        (Engine.readOutlets E cons (Engine.readOutlet E cons st o).1 os).1 :=
      rfl
    refine ⟨by rw [hfold]; exact inv2, ?_⟩
    intro m
    rw [hfold, hc2 m, hc1 m, List.count_cons]
    by_cases hm : o = m <;> simp [hm] <;> omega

/-- Executing one step preserves the invariant (with its node now
emitted) and adds reads only for its outlets. -/
theorem runStep_spec (E : Engine.EngCfg V) (cons : Nat → Nat)
    (doneNodes : List Nat) (st : Engine.RunState V)
    (inv : Engine.EngInv E cons doneNodes st) (s : Engine.EStep)
    (hnode : s.node ∉ doneNodes) (houts : ∀ o ∈ s.outlets, o ∈ doneNodes) :
    Engine.EngInv E cons (doneNodes ++ [s.node])
      (Engine.runStep E cons st s) ∧
    (∀ m, Engine.readCountL (Engine.runStep E cons st s).log m =
      Engine.readCountL st.log m + s.outlets.count m) := by
  obtain ⟨inv1, hc1⟩ := readOutlets_spec E cons doneNodes s.outlets st inv houts
  set p := Engine.readOutlets E cons st s.outlets with hp
  set v := E.evalNode s.node p.2 with hv
  have hrs : Engine.runStep E cons st s =
      ⟨Engine.updateRes p.1.results s.node v, p.1.consumed,
        p.1.log ++ [.evalE s.node v]⟩ := rfl
  have hproj_empty : Engine.projOf s.node p.1.log = [] := by
    by_contra hne
    exact hnode ((inv1.done_iff s.node).mpr hne)
  have heval_node : Engine.eventNode (Engine.Event.evalE s.node v) = s.node :=
    rfl
  refine ⟨⟨?_, ?_, ?_⟩, ?_⟩
  · intro m
    rw [hrs]
    by_cases hm : m = s.node
    · subst hm
      rw [projOf_append_self s.node p.1.log _ (by
        intro e he; rw [List.mem_singleton] at he; subst he; rfl)]
      rw [hproj_empty]
      have hh := inv1.hist s.node
      rw [hproj_empty] at hh
      generalize hR : p.1.results s.node = R at hh
      cases hh
      have hres : Engine.updateRes p.1.results s.node v s.node = v := by
        simp [Engine.updateRes]
      simpa [hres] using @Engine.HistOK.evald V E (cons s.node) s.node v
    · rw [projOf_append_other m p.1.log _ (by
        intro e he; rw [List.mem_singleton] at he; subst he
        simp only [Engine.eventNode]
        exact fun hc => hm hc.symm)]
      simpa [Engine.updateRes, hm] using inv1.hist m
  · intro m
    rw [hrs]
    have hz : Engine.readCountL [Engine.Event.evalE s.node v] m = 0 := by
      simp [Engine.readCountL, List.countP_cons]
    show m ∈ p.1.consumed ↔
      1 ≤ Engine.readCountL (p.1.log ++ [Engine.Event.evalE s.node v]) m
    rw [readCountL_append, hz, Nat.add_zero]
    exact inv1.cons_read m
  · intro m
    rw [hrs]
    by_cases hm : m = s.node
    · subst hm
      rw [projOf_append_self s.node p.1.log _ (by
        intro e he; rw [List.mem_singleton] at he; subst he; rfl)]
      simp
    · rw [projOf_append_other m p.1.log _ (by
        intro e he; rw [List.mem_singleton] at he; subst he
        simp only [Engine.eventNode]
        exact fun hc => hm hc.symm)]
      rw [List.mem_append, List.mem_singleton]
      constructor
      · rintro (h | h)
        · exact (inv1.done_iff m).mp h
        · exact absurd h hm
      · intro h
        exact Or.inl ((inv1.done_iff m).mpr h)
  · intro m
    rw [hrs]
    have hz : Engine.readCountL [Engine.Event.evalE s.node v] m = 0 := by
      simp [Engine.readCountL, List.countP_cons]
    show Engine.readCountL (p.1.log ++ [Engine.Event.evalE s.node v]) m =
      Engine.readCountL st.log m + s.outlets.count m
    rw [readCountL_append, hz, Nat.add_zero]
    exact hc1 m

/-- The invariant holds through a whole well-formed step sequence, and
reads total up to the outlet-reference counts. -/
theorem runSteps_inv (E : Engine.EngCfg V) (cons : Nat → Nat) :
    ∀ (todo : List Engine.EStep) (doneNodes : List Nat)
      (st : Engine.RunState V),
      Engine.WFPlan doneNodes todo →
      Engine.EngInv E cons doneNodes st →
      Engine.EngInv E cons (doneNodes ++ todo.map (·.node))
        (todo.foldl (Engine.runStep E cons) st) ∧
      (∀ m, Engine.readCountL
          (todo.foldl (Engine.runStep E cons) st).log m =
        Engine.readCountL st.log m + Engine.countOutlets todo m) := by
  intro todo
  induction todo with
  | nil =>
    intro done st _ inv
    exact ⟨by simpa using inv, by simp [Engine.countOutlets]⟩
  | cons s ss ih =>
    intro done st hwf inv
    cases hwf with
    | cons _ _ _ hnode houts hrest =>
      obtain ⟨inv1, hc1⟩ := runStep_spec E cons done st inv s hnode houts
      obtain ⟨inv2, hc2⟩ :=
        ih (done ++ [s.node]) (Engine.runStep E cons st s) hrest inv1
      constructor
      · simpa [List.append_assoc] using inv2
      · intro m
        have hcnt : Engine.countOutlets (s :: ss) m =
            s.outlets.count m + Engine.countOutlets ss m := by
          simp [Engine.countOutlets]
        rw [List.foldl_cons, hc2 m, hc1 m, hcnt]
        omega

/-- The invariant of the initial run state. -/
theorem engInv_init (E : Engine.EngCfg V) (cons : Nat → Nat) :
    Engine.EngInv E cons []
      ⟨fun _ => E.init, [], ([] : List (Engine.Event V))⟩ := by
  refine ⟨?_, ?_, ?_⟩
  · intro n
    exact Engine.HistOK.empty
  · intro n
    simp [Engine.readCountL]
  · intro n
    simp [Engine.projOf]

/-- Membership in a node's projection. -/
theorem mem_projOf_iff (n : Nat) (e : Engine.Event V)
    (log : List (Engine.Event V)) :
    e ∈ Engine.projOf n log ↔ (e ∈ log ∧ Engine.eventNode e = n) := by
  simp [Engine.projOf, List.mem_filter]

/-- C2: the retention discipline of `ExecutionEngine.run`.  For a
well-formed plan whose consumption counter counts the bound outlet
references (as `execution_plan` computes it), and for every node `n`:
`retained()` is called at most once on `n`'s result in the whole run;
never when `n`'s consumption count is at most 1; never when the
evaluated result is not consumable; exactly once when the evaluated
result is consumable and the consumption count exceeds 1; the retained
value is the evaluated result, and every read of `n` — in particular
every read after the first — receives the retained value; no read of `n`
precedes the retention (so it happens before any second read); and `n`
is read exactly `consumption` times. -/
theorem engine_retention (V : Type) (E : Engine.EngCfg V)
    (plan : Engine.EPlan) (hwf : Engine.WFPlan [] plan.steps)
    (hcons : ∀ m, plan.consumption m = Engine.countOutlets plan.steps m) :
    ∀ n,
      Engine.retainCountL (Engine.run E plan).log n ≤ 1 ∧
      (plan.consumption n ≤ 1 →
        Engine.retainCountL (Engine.run E plan).log n = 0) ∧
      (∀ v, Engine.Event.evalE n v ∈ (Engine.run E plan).log →
        E.isConsumable v = false →
        Engine.retainCountL (Engine.run E plan).log n = 0) ∧
      (∀ v, Engine.Event.evalE n v ∈ (Engine.run E plan).log →
        E.isConsumable v = true → 1 < plan.consumption n →
        Engine.retainCountL (Engine.run E plan).log n = 1) ∧
      (∀ v, Engine.Event.retainE n v ∈ (Engine.run E plan).log →
        Engine.Event.evalE n v ∈ (Engine.run E plan).log ∧
        (∀ w, Engine.Event.readE n w ∈ (Engine.run E plan).log →
          w = E.retained v)) ∧
      (∀ (L1 L2 : List (Engine.Event V)) (v : V),
        (Engine.run E plan).log = L1 ++ .retainE n v :: L2 →
        Engine.readCountL L1 n = 0) ∧
      Engine.readCountL (Engine.run E plan).log n = plan.consumption n := by
  obtain ⟨hinv0, hcounts⟩ := runSteps_inv E plan.consumption plan.steps [] _
    hwf (engInv_init E plan.consumption)
  intro n
  have hread : Engine.readCountL (Engine.run E plan).log n =
      plan.consumption n := by
    have h := hcounts n
    rw [hcons n]
    simpa [Engine.readCountL] using h
  have hh : Engine.HistOK E (plan.consumption n) n
      (Engine.projOf n (Engine.run E plan).log)
      ((Engine.run E plan).results n) := hinv0.hist n
  generalize hP : Engine.projOf n (Engine.run E plan).log = P at hh
  generalize hR : (Engine.run E plan).results n = R at hh
  have hretain : Engine.retainCountL (Engine.run E plan).log n =
      Engine.retainCountL P n := by
    rw [← retainCountL_proj n, hP]
  have hreadP : Engine.readCountL (Engine.run E plan).log n =
      Engine.readCountL P n := by
    rw [← readCountL_proj n, hP]
  have hdec : ∀ (L1 L2 : List (Engine.Event V)) (v' : V),
      (Engine.run E plan).log = L1 ++ .retainE n v' :: L2 →
      Engine.projOf n L1 ++
        (Engine.Event.retainE n v' :: Engine.projOf n L2) = P := by
    intro L1 L2 v' hlog
    rw [← hP, hlog, projOf_append]
    congr 1
    simp [Engine.projOf, List.filter_cons, Engine.eventNode]
  have hmem_eval : ∀ v, Engine.Event.evalE n v ∈ (Engine.run E plan).log →
      Engine.Event.evalE n v ∈ P := by
    intro v hv
    rw [← hP]
    exact (mem_projOf_iff n _ _).mpr ⟨hv, rfl⟩
  have hmem_retain : ∀ v, Engine.Event.retainE n v ∈ (Engine.run E plan).log →
      Engine.Event.retainE n v ∈ P := by
    intro v hv
    rw [← hP]
    exact (mem_projOf_iff n _ _).mpr ⟨hv, rfl⟩
  have hmem_read : ∀ w, Engine.Event.readE n w ∈ (Engine.run E plan).log →
      Engine.Event.readE n w ∈ P := by
    intro w hw
    rw [← hP]
    exact (mem_projOf_iff n _ _).mpr ⟨hw, rfl⟩
  cases hh with
  | empty =>
    refine ⟨by rw [hretain]; simp [Engine.retainCountL], ?_, ?_, ?_, ?_, ?_,
      hread⟩
    · intro _; rw [hretain]; simp [Engine.retainCountL]
    · intro v hv _
      exact absurd (hmem_eval v hv) (by simp)
    · intro v hv _ _
      exact absurd (hmem_eval v hv) (by simp)
    · intro v hv
      exact absurd (hmem_retain v hv) (by simp)
    · intro L1 L2 v hlog
      have := hdec L1 L2 v hlog
      simp at this
  | evald v =>
    refine ⟨by rw [hretain]; simp [Engine.retainCountL, List.countP_cons],
      ?_, ?_, ?_, ?_, ?_, hread⟩
    · intro _; rw [hretain]; simp [Engine.retainCountL, List.countP_cons]
    · intro v' _ _
      rw [hretain]; simp [Engine.retainCountL, List.countP_cons]
    · intro v' _ _ hgt
      exfalso
      rw [hreadP] at hread
      simp [Engine.readCountL, List.countP_cons] at hread
      omega
    · intro v' hv'
      have := hmem_retain v' hv'
      simp at this
    · intro L1 L2 v' hlog
      exfalso
      have hmem : Engine.Event.retainE n v' ∈
          Engine.projOf n L1 ++
            (Engine.Event.retainE n v' :: Engine.projOf n L2) :=
        List.mem_append.mpr (Or.inr (by simp))
      rw [hdec L1 L2 v' hlog] at hmem
      simp at hmem
  | plain v k hk hno =>
    refine ⟨?_, ?_, ?_, ?_, ?_, ?_, hread⟩
    · rw [hretain]
      simp [Engine.retainCountL, List.countP_cons, countP_replicate]
    · intro _
      rw [hretain]
      simp [Engine.retainCountL, List.countP_cons, countP_replicate]
    · intro v' _ _
      rw [hretain]
      simp [Engine.retainCountL, List.countP_cons, countP_replicate]
    · intro v' hv' hcons' hgt
      exfalso
      have hpm := hmem_eval v' hv'
      rcases List.mem_cons.mp hpm with h | h
      · have hvv : v' = R := by
          injection h with h1 h2
        exact hno ⟨hvv ▸ hcons', hgt⟩
      · have := List.eq_of_mem_replicate h
        simp at this
    · intro v' hv'
      have := hmem_retain v' hv'
      rcases List.mem_cons.mp this with h | h
      · simp at h
      · have := List.eq_of_mem_replicate h
        simp at this
    · intro L1 L2 v' hlog
      exfalso
      have hmem : Engine.Event.retainE n v' ∈
          Engine.projOf n L1 ++
            (Engine.Event.retainE n v' :: Engine.projOf n L2) :=
        List.mem_append.mpr (Or.inr (by simp))
      rw [hdec L1 L2 v' hlog] at hmem
      rcases List.mem_cons.mp hmem with h | h
      · simp at h
      · have := List.eq_of_mem_replicate h
        simp at this
  | retained v k hk hc hcnt =>
    have hrc1 : Engine.retainCountL (Engine.run E plan).log n = 1 := by
      rw [hretain]
      simp [Engine.retainCountL, List.countP_cons, countP_replicate]
    refine ⟨by omega, ?_, ?_, ?_, ?_, ?_, hread⟩
    · intro hle
      omega
    · intro v' hv' hfalse
      exfalso
      have hpm := hmem_eval v' hv'
      have hvv : v' = v := by
        rcases List.mem_cons.mp hpm with h | h
        · injection h with h1 h2
        · rcases List.mem_cons.mp h with h2 | h2
          · simp at h2
          · have := List.eq_of_mem_replicate h2
            simp at this
      rw [hvv, hc] at hfalse
      exact absurd hfalse (by simp)
    · intro v' _ _ _
      exact hrc1
    · intro v' hv'
      have hpm := hmem_retain v' hv'
      have hvv : v' = v := by
        rcases List.mem_cons.mp hpm with h | h
        · simp at h
        · rcases List.mem_cons.mp h with h2 | h2
          · injection h2 with h1 h2'
          · have := List.eq_of_mem_replicate h2
            simp at this
      rw [hvv]
      constructor
      · have hm2 : Engine.Event.evalE n v ∈
            Engine.projOf n (Engine.run E plan).log := by
          rw [hP]
          simp
        exact ((mem_projOf_iff n _ _).mp hm2).1
      · intro w hw
        have hpw := hmem_read w hw
        rcases List.mem_cons.mp hpw with h | h
        · simp at h
        · rcases List.mem_cons.mp h with h2 | h2
          · simp at h2
          · have := List.eq_of_mem_replicate h2
            injection this with h1 h2'
    · intro L1 L2 v' hlog
      have hde := hdec L1 L2 v' hlog
      cases hhA : Engine.projOf n L1 with
      | nil =>
        exfalso
        rw [hhA, List.nil_append] at hde
        injection hde with hhead htail
        exact Engine.Event.noConfusion hhead
      | cons e t =>
        rw [hhA, List.cons_append] at hde
        injection hde with he htail
        cases hht : t with
        | nil =>
          have hA1 : Engine.projOf n L1 = [Engine.Event.evalE n v] := by
            rw [hhA, hht, he]
          rw [← readCountL_proj n L1, hA1]
          simp [Engine.readCountL, List.countP_cons]
        | cons e2 t2 =>
          exfalso
          rw [hht, List.cons_append] at htail
          injection htail with he2 htail2
          have hmem : Engine.Event.retainE n v' ∈
              List.replicate k (Engine.Event.readE n (E.retained v)) := by
            rw [← htail2]
            exact List.mem_append.mpr (Or.inr (by simp))
          have := List.eq_of_mem_replicate hmem
          simp at this

/-- Witness for `engine_retention`: in a three-step plan where node 0's
consumable result (5) feeds the outlets of nodes 1 and 2 (consumption
count 2), the run retains node 0 exactly once and reads it exactly
twice. -/
theorem engine_retention_witness :
    Engine.retainCountL
        (Engine.run
          (⟨fun v => v == 5, fun v => v + 10,
            fun n _ => if n = 0 then 5 else 7, 0⟩ : Engine.EngCfg Nat)
          ⟨[⟨0, []⟩, ⟨1, [0]⟩, ⟨2, [0]⟩],
            fun n => if n = 0 then 2 else 0⟩).log 0 = 1 ∧
    Engine.readCountL
        (Engine.run
          (⟨fun v => v == 5, fun v => v + 10,
            fun n _ => if n = 0 then 5 else 7, 0⟩ : Engine.EngCfg Nat)
          ⟨[⟨0, []⟩, ⟨1, [0]⟩, ⟨2, [0]⟩],
            fun n => if n = 0 then 2 else 0⟩).log 0 = 2 := by
  have hwf : Engine.WFPlan []
      ([⟨0, []⟩, ⟨1, [0]⟩, ⟨2, [0]⟩] : List Engine.EStep) := by
    refine Engine.WFPlan.cons _ _ _ (by simp) (by simp)
      (Engine.WFPlan.cons _ _ _ (by simp) (by simp)
        (Engine.WFPlan.cons _ _ _ (by simp) (by simp)
          (Engine.WFPlan.nil _)))
  have hcons : ∀ m,
      (⟨[⟨0, []⟩, ⟨1, [0]⟩, ⟨2, [0]⟩],
        fun n => if n = 0 then 2 else 0⟩ : Engine.EPlan).consumption m =
      Engine.countOutlets
        ([⟨0, []⟩, ⟨1, [0]⟩, ⟨2, [0]⟩] : List Engine.EStep) m := by
    intro m
    cases m <;> rfl
  have h := engine_retention Nat
    ⟨fun v => v == 5, fun v => v + 10,
      fun n _ => if n = 0 then 5 else 7, 0⟩
    ⟨[⟨0, []⟩, ⟨1, [0]⟩, ⟨2, [0]⟩], fun n => if n = 0 then 2 else 0⟩
    hwf hcons 0
  refine ⟨h.2.2.2.1 5 ?_ ?_ ?_, ?_⟩
  · decide
  · rfl
  · decide
  · simpa using h.2.2.2.2.2.2

end Bubbles
